import Mathlib

/-!
# Verification of the gallery manifest synchronization core

A shallow embedding of the repository's publish pipeline: the Unicode-safe
Base64 codec (`utf8_to_b64` / `b64_to_utf8`), the JSON manifest
serialization used by `updateGalleryManifest`, the optimistic-concurrency
store model (whole-file conditional PUT keyed by an integrity token), the
publish orchestration in `handlePublish`, and the read-side cache logic of
`fetchGalleryFromGitHub` / `loadGalleryData`.

Machine integers do not occur; JS strings are modelled as Lean `String`
(sequences of Unicode scalar values), bytes as `Nat` values below 256, and
the store's content hash as an abstract fresh-counter integrity token, the
compare-and-swap abstraction the design notes prescribe for it.
-/

set_option maxRecDepth 10000
set_option maxHeartbeats 1000000

namespace GalleryProof

/-- One published piece, the `Artwork` record of `types.ts` as built by
`handlePublish`: `id`, `imageUrl`, `title`, `description`, `medium`,
`tags`, `createdAt`.  `createdAt` is `Date.now()`, an integer timestamp. -/
structure Artwork where
  id : String
  imageUrl : String
  title : String
  description : String
  medium : String
  tags : List String
  createdAt : Nat
deriving DecidableEq, Repr

/-! ## UTF-8 byte layer

`encodeURIComponent` followed by `unescape` turns a JS string into the
string of its UTF-8 bytes; `escape` followed by `decodeURIComponent` is
the inverse.  We model the byte sequence directly. -/

/-- UTF-8 encoding of a single Unicode scalar value. -/
def utf8EncodeNat (n : Nat) : List Nat :=
  if n < 0x80 then [n]
  else if n < 0x800 then [0xC0 + n / 64, 0x80 + n % 64]
  else if n < 0x10000 then [0xE0 + n / 4096, 0x80 + n / 64 % 64, 0x80 + n % 64]
  else [0xF0 + n / 262144, 0x80 + n / 4096 % 64, 0x80 + n / 64 % 64, 0x80 + n % 64]

/-- UTF-8 bytes of a string (what `unescape(encodeURIComponent s)` holds,
one byte per character). -/
def utf8Encode (s : String) : List Nat :=
  (s.data.map (fun c => utf8EncodeNat c.toNat)).flatten

/-- A scalar value as a `Char`, refusing surrogates and out-of-range
values (as `decodeURIComponent` does). -/
def charFromNat? (n : Nat) : Option Char :=
  if h : n.isValidChar then some (Char.ofNatAux n h) else none

/-- Is `b` a UTF-8 continuation byte? -/
def isCont (b : Nat) : Bool := 0x80 ≤ b && b < 0xC0

/-- Decode one UTF-8 sequence from the front of a byte stream, rejecting
malformed, overlong and surrogate sequences
(`decodeURIComponent(escape bytes)` fails on those). -/
def utf8DecodeOne : List Nat → Option (Char × List Nat)
  | [] => none
  | b1 :: t1 =>
    if b1 < 0x80 then
      match charFromNat? b1 with
      | some c => some (c, t1)
      | none => none
    else if b1 < 0xC0 then none
    else if b1 < 0xE0 then
      match t1 with
      | b2 :: t2 =>
        if isCont b2 then
          let n := (b1 - 0xC0) * 64 + (b2 - 0x80)
          if n < 0x80 then none else
          match charFromNat? n with
          | some c => some (c, t2)
          | none => none
        else none
      | [] => none
    else if b1 < 0xF0 then
      match t1 with
      | b2 :: b3 :: t3 =>
        if isCont b2 && isCont b3 then
          let n := (b1 - 0xE0) * 4096 + (b2 - 0x80) * 64 + (b3 - 0x80)
          if n < 0x800 then none else
          match charFromNat? n with
          | some c => some (c, t3)
          | none => none
        else none
      | _ => none
    else if b1 < 0xF8 then
      match t1 with
      | b2 :: b3 :: b4 :: t4 =>
        if isCont b2 && isCont b3 && isCont b4 then
          let n := (b1 - 0xF0) * 262144 + (b2 - 0x80) * 4096 + (b3 - 0x80) * 64 + (b4 - 0x80)
          if n < 0x10000 then none else
          match charFromNat? n with
          | some c => some (c, t4)
          | none => none
        else none
      | _ => none
    else none

/-- Fuelled UTF-8 decoding loop; `fuel` bounds the number of decoded
characters and is instantiated with the byte count. -/
def utf8DecodeAux : Nat → List Nat → Option (List Char)
  | 0, l => if l.isEmpty then some [] else none
  | fuel + 1, l =>
    if l.isEmpty then some []
    else
      match utf8DecodeOne l with
      | some (c, rest) =>
        match utf8DecodeAux fuel rest with
        | some cs => some (c :: cs)
        | none => none
      | none => none

/-- UTF-8 decoding of a byte sequence. -/
def utf8Decode (l : List Nat) : Option (List Char) :=
  utf8DecodeAux l.length l

theorem char_toNat_valid (c : Char) : c.toNat.isValidChar := c.valid

theorem char_toNat_lt (c : Char) : c.toNat < 0x110000 := by
  rcases c.valid with h | ⟨_, h⟩
  · exact Nat.lt_trans h (by norm_num)
  · exact h

theorem charFromNat?_toNat (c : Char) : charFromNat? c.toNat = some c := by
  unfold charFromNat?
  rw [dif_pos (char_toNat_valid c)]
  have h := Char.ofNat_toNat c
  unfold Char.ofNat at h
  rw [dif_pos (char_toNat_valid c)] at h
  rw [h]

/-- Decoding one encoded scalar value from the front of a byte stream
recovers the character and leaves the rest untouched. -/
theorem utf8DecodeOne_encode (c : Char) (rest : List Nat) :
    utf8DecodeOne (utf8EncodeNat c.toNat ++ rest) = some (c, rest) := by
  have hlt := char_toNat_lt c
  have hv := charFromNat?_toNat c
  by_cases h1 : c.toNat < 0x80
  · simp only [utf8EncodeNat, if_pos h1, List.cons_append, List.nil_append, utf8DecodeOne]
    rw [hv]
  · by_cases h2 : c.toNat < 0x800
    · simp only [utf8EncodeNat, if_neg h1, if_pos h2, List.cons_append, List.nil_append,
        utf8DecodeOne]
      rw [if_neg (by omega), if_neg (by omega), if_pos (by omega)]
      have hcont : isCont (0x80 + c.toNat % 64) = true := by
        simp only [isCont, Bool.and_eq_true, decide_eq_true_eq]
        omega
      rw [hcont]
      simp only [if_true]
      have hn : (0xC0 + c.toNat / 64 - 0xC0) * 64 + (0x80 + c.toNat % 64 - 0x80) = c.toNat := by
        omega
      rw [hn, if_neg (by omega), hv]
    · by_cases h3 : c.toNat < 0x10000
      · simp only [utf8EncodeNat, if_neg h1, if_neg h2, if_pos h3, List.cons_append,
          List.nil_append, utf8DecodeOne]
        rw [if_neg (by omega), if_neg (by omega), if_neg (by omega), if_pos (by omega)]
        have hcont : (isCont (0x80 + c.toNat / 64 % 64) && isCont (0x80 + c.toNat % 64)) = true := by
          simp only [isCont, Bool.and_eq_true, decide_eq_true_eq]
          omega
        rw [hcont]
        simp only [if_true]
        have hn : (0xE0 + c.toNat / 4096 - 0xE0) * 4096 + (0x80 + c.toNat / 64 % 64 - 0x80) * 64 +
            (0x80 + c.toNat % 64 - 0x80) = c.toNat := by
          omega
        rw [hn, if_neg (by omega), hv]
      · simp only [utf8EncodeNat, if_neg h1, if_neg h2, if_neg h3, List.cons_append,
          List.nil_append, utf8DecodeOne]
        rw [if_neg (by omega), if_neg (by omega), if_neg (by omega), if_neg (by omega),
          if_pos (by omega)]
        have hcont : (isCont (0x80 + c.toNat / 4096 % 64) && isCont (0x80 + c.toNat / 64 % 64) &&
            isCont (0x80 + c.toNat % 64)) = true := by
          simp only [isCont, Bool.and_eq_true, decide_eq_true_eq]
          omega
        rw [hcont]
        simp only [if_true]
        have hn : (0xF0 + c.toNat / 262144 - 0xF0) * 262144 + (0x80 + c.toNat / 4096 % 64 - 0x80) * 4096 +
            (0x80 + c.toNat / 64 % 64 - 0x80) * 64 + (0x80 + c.toNat % 64 - 0x80) = c.toNat := by
          omega
        rw [hn, if_neg (by omega), hv]

theorem utf8EncodeNat_ne_nil (c : Char) : utf8EncodeNat c.toNat ≠ [] := by
  unfold utf8EncodeNat
  split
  · simp
  · split
    · simp
    · split <;> simp

/-- The fuelled decoder inverts the encoder whenever the fuel covers the
number of characters. -/
theorem utf8DecodeAux_encode (cs : List Char) :
    ∀ fuel, cs.length ≤ fuel →
      utf8DecodeAux fuel ((cs.map (fun c => utf8EncodeNat c.toNat)).flatten) = some cs := by
  induction cs with
  | nil =>
    intro fuel _
    cases fuel <;> simp [utf8DecodeAux]
  | cons c cs ih =>
    intro fuel hfuel
    simp only [List.length_cons] at hfuel
    obtain ⟨f, rfl⟩ : ∃ f, fuel = f + 1 := ⟨fuel - 1, by omega⟩
    simp only [List.map_cons, List.flatten_cons, utf8DecodeAux]
    have hne : (utf8EncodeNat c.toNat ++ (cs.map (fun c => utf8EncodeNat c.toNat)).flatten).isEmpty = false := by
      cases henc : utf8EncodeNat c.toNat with
      | nil => exact absurd henc (utf8EncodeNat_ne_nil c)
      | cons b bs => simp
    rw [hne]
    simp only [Bool.false_eq_true, if_false, utf8DecodeOne_encode]
    rw [ih f (by omega)]

/-- Each character contributes at least one byte. -/
theorem length_le_utf8_length (cs : List Char) :
    cs.length ≤ ((cs.map (fun c => utf8EncodeNat c.toNat)).flatten).length := by
  induction cs with
  | nil => simp
  | cons c cs ih =>
    simp only [List.map_cons, List.flatten_cons, List.length_cons, List.length_append]
    have : 1 ≤ (utf8EncodeNat c.toNat).length := by
      cases henc : utf8EncodeNat c.toNat with
      | nil => exact absurd henc (utf8EncodeNat_ne_nil c)
      | cons b bs => simp
    omega

/-- UTF-8 round trip on strings. -/
theorem utf8Decode_encode (s : String) : utf8Decode (utf8Encode s) = some s.data := by
  unfold utf8Decode utf8Encode
  exact utf8DecodeAux_encode s.data _ (length_le_utf8_length s.data)

/-- Every UTF-8 byte is below 256. -/
theorem utf8EncodeNat_lt (c : Char) : ∀ b ∈ utf8EncodeNat c.toNat, b < 256 := by
  have hlt := char_toNat_lt c
  intro b hb
  unfold utf8EncodeNat at hb
  by_cases h1 : c.toNat < 0x80
  · rw [if_pos h1] at hb
    simp only [List.mem_singleton] at hb
    omega
  · by_cases h2 : c.toNat < 0x800
    · rw [if_neg h1, if_pos h2] at hb
      simp only [List.mem_cons, List.mem_singleton, List.not_mem_nil, or_false] at hb
      rcases hb with rfl | rfl <;> omega
    · by_cases h3 : c.toNat < 0x10000
      · rw [if_neg h1, if_neg h2, if_pos h3] at hb
        simp only [List.mem_cons, List.mem_singleton, List.not_mem_nil, or_false] at hb
        rcases hb with rfl | rfl | rfl <;> omega
      · rw [if_neg h1, if_neg h2, if_neg h3] at hb
        simp only [List.mem_cons, List.mem_singleton, List.not_mem_nil, or_false] at hb
        rcases hb with rfl | rfl | rfl | rfl <;> omega

theorem utf8Encode_lt (s : String) : ∀ b ∈ utf8Encode s, b < 256 := by
  intro b hb
  unfold utf8Encode at hb
  rw [List.mem_flatten] at hb
  obtain ⟨l, hl, hbl⟩ := hb
  rw [List.mem_map] at hl
  obtain ⟨c, _, rfl⟩ := hl
  exact utf8EncodeNat_lt c b hbl

/-! ## Base64 layer

`window.btoa` encodes a byte string (a latin-1 JS string) to Base64;
`window.atob` decodes, failing on characters outside the Base64 alphabet. -/

/-- The Base64 alphabet, sextet value to character. -/
def b64Alphabet : List Char :=
  "ABCDEFGHIJKLMNOPQRSTUVWXYZabcdefghijklmnopqrstuvwxyz0123456789+/".data

/-- Character for a sextet value. -/
def b64Char (v : Nat) : Char := b64Alphabet.getD v 'A'

/-- Index of a character in a list. -/
def charIndex (c : Char) : List Char → Option Nat
  | [] => none
  | d :: ds => if d = c then some 0 else (charIndex c ds).map (· + 1)

/-- Sextet value of a Base64 character, `none` off the alphabet. -/
def b64Val? (c : Char) : Option Nat := charIndex c b64Alphabet

/-- Base64 encoding of a byte sequence (what `btoa` produces). -/
def b64encodeBytes : List Nat → List Char
  | [] => []
  | [a] => [b64Char (a / 4), b64Char (a % 4 * 16), '=', '=']
  | [a, b] => [b64Char (a / 4), b64Char (a % 4 * 16 + b / 16), b64Char (b % 16 * 4), '=']
  | a :: b :: c :: rest =>
      b64Char (a / 4) :: b64Char (a % 4 * 16 + b / 16) :: b64Char (b % 16 * 4 + c / 64) ::
        b64Char (c % 64) :: b64encodeBytes rest

/-- Base64 decoding of a character sequence (what `atob` does), `none` on
characters outside the alphabet, bad length or misplaced padding. -/
def b64decodeBytes : List Char → Option (List Nat)
  | [] => some []
  | c1 :: c2 :: c3 :: c4 :: rest =>
    (b64Val? c1).bind fun v1 =>
    (b64Val? c2).bind fun v2 =>
    if c3 = '=' then
      if c4 = '=' then
        if rest = [] then some [v1 * 4 + v2 / 16] else none
      else none
    else
      (b64Val? c3).bind fun v3 =>
      if c4 = '=' then
        if rest = [] then some [v1 * 4 + v2 / 16, v2 % 16 * 16 + v3 / 4] else none
      else
        (b64Val? c4).bind fun v4 =>
        (b64decodeBytes rest).bind fun bs =>
        some ((v1 * 4 + v2 / 16) :: (v2 % 16 * 16 + v3 / 4) :: (v3 % 4 * 64 + v4) :: bs)
  | _ => none

theorem b64Val?_b64Char : ∀ v < 64, b64Val? (b64Char v) = some v := by decide

theorem b64Char_ne_pad : ∀ v < 64, b64Char v ≠ '=' := by decide

/-- Base64 round trip: decoding the encoding of any byte sequence
recovers it. -/
theorem b64decode_encode : ∀ l : List Nat, (∀ b ∈ l, b < 256) →
    b64decodeBytes (b64encodeBytes l) = some l
  | [], _ => rfl
  | [a], h => by
    have ha : a < 256 := h a (by simp)
    have e1 := b64Val?_b64Char (a / 4) (by omega)
    have e2 := b64Val?_b64Char (a % 4 * 16) (by omega)
    simp only [b64encodeBytes, b64decodeBytes, e1, e2, Option.some_bind, if_pos rfl, if_true]
    have : a / 4 * 4 + a % 4 * 16 / 16 = a := by omega
    rw [this]
  | [a, b], h => by
    have ha : a < 256 := h a (by simp)
    have hb : b < 256 := h b (by simp)
    have e1 := b64Val?_b64Char (a / 4) (by omega)
    have e2 := b64Val?_b64Char (a % 4 * 16 + b / 16) (by omega)
    have e3 := b64Val?_b64Char (b % 16 * 4) (by omega)
    have h3 := b64Char_ne_pad (b % 16 * 4) (by omega)
    simp only [b64encodeBytes, b64decodeBytes, e1, e2, e3, Option.some_bind, if_neg h3,
      if_pos rfl, if_true]
    have hx : a / 4 * 4 + (a % 4 * 16 + b / 16) / 16 = a := by omega
    have hy : (a % 4 * 16 + b / 16) % 16 * 16 + b % 16 * 4 / 4 = b := by omega
    rw [hx, hy]
  | a :: b :: c :: rest, h => by
    have ha : a < 256 := h a (by simp)
    have hb : b < 256 := h b (by simp)
    have hc : c < 256 := h c (by simp)
    have ih := b64decode_encode rest (fun x hx => h x (by simp [hx]))
    have e1 := b64Val?_b64Char (a / 4) (by omega)
    have e2 := b64Val?_b64Char (a % 4 * 16 + b / 16) (by omega)
    have e3 := b64Val?_b64Char (b % 16 * 4 + c / 64) (by omega)
    have e4 := b64Val?_b64Char (c % 64) (by omega)
    have h3 := b64Char_ne_pad (b % 16 * 4 + c / 64) (by omega)
    have h4 := b64Char_ne_pad (c % 64) (by omega)
    simp only [b64encodeBytes, b64decodeBytes, e1, e2, e3, e4, Option.some_bind, if_neg h3,
      if_neg h4, ih]
    have hx : a / 4 * 4 + (a % 4 * 16 + b / 16) / 16 = a := by omega
    have hy : (a % 4 * 16 + b / 16) % 16 * 16 + (b % 16 * 4 + c / 64) / 4 = b := by omega
    have hz : (b % 16 * 4 + c / 64) % 4 * 64 + c % 64 = c := by omega
    rw [hx, hy, hz]
decreasing_by simp_wf; omega

theorem b64Alphabet_ne_newline : ∀ ch ∈ b64Alphabet, ch ≠ '\n' := by decide

theorem b64Char_ne_newline (v : Nat) : b64Char v ≠ '\n' := by
  unfold b64Char
  rcases Nat.lt_or_ge v b64Alphabet.length with hv | hv
  · rw [List.getD_eq_getElem _ _ hv]
    exact b64Alphabet_ne_newline _ (List.getElem_mem hv)
  · rw [List.getD_eq_default _ _ hv]
    decide

/-- No character the Base64 encoder emits is a newline. -/
theorem b64encodeBytes_ne_newline : ∀ (l : List Nat), ∀ ch ∈ b64encodeBytes l, ch ≠ '\n'
  | [] => by simp [b64encodeBytes]
  | [a] => by
    intro ch hch
    simp only [b64encodeBytes, List.mem_cons, List.not_mem_nil, or_false] at hch
    rcases hch with rfl | rfl | rfl | rfl
    · exact b64Char_ne_newline _
    · exact b64Char_ne_newline _
    · decide
    · decide
  | [a, b] => by
    intro ch hch
    simp only [b64encodeBytes, List.mem_cons, List.not_mem_nil, or_false] at hch
    rcases hch with rfl | rfl | rfl | rfl
    · exact b64Char_ne_newline _
    · exact b64Char_ne_newline _
    · exact b64Char_ne_newline _
    · decide
  | a :: b :: c :: rest => by
    intro ch hch
    have ih := b64encodeBytes_ne_newline rest
    simp only [b64encodeBytes, List.mem_cons] at hch
    rcases hch with rfl | rfl | rfl | rfl | hch
    · exact b64Char_ne_newline _
    · exact b64Char_ne_newline _
    · exact b64Char_ne_newline _
    · exact b64Char_ne_newline _
    · exact ih ch hch

/-! ## The source codec

`utf8_to_b64` / `b64_to_utf8` from the service module:
`utf8_to_b64 = btoa ∘ unescape ∘ encodeURIComponent` and
`b64_to_utf8 = decodeURIComponent ∘ escape ∘ atob`; `atob` and
`decodeURIComponent` can throw, so the decoding direction is partial. -/

def utf8_to_b64 (s : String) : String := String.mk (b64encodeBytes (utf8Encode s))

def b64_to_utf8 (s : String) : Option String :=
  match b64decodeBytes s.data with
  | some bytes =>
    match utf8Decode bytes with
    | some cs => some (String.mk cs)
    | none => none
  | none => none

/-- Codec round trip at the string layer. -/
theorem b64_to_utf8_utf8_to_b64 (s : String) : b64_to_utf8 (utf8_to_b64 s) = some s := by
  unfold b64_to_utf8 utf8_to_b64
  rw [show (String.mk (b64encodeBytes (utf8Encode s))).data = b64encodeBytes (utf8Encode s) from rfl]
  simp only [b64decode_encode _ (utf8Encode_lt s), utf8Decode_encode s]

/-! ## JSON layer

The manifest travels as the `JSON.stringify(..., null, 2)` serialization
of an array and is read back with `JSON.parse`.  Both are JS builtins, so
they are modelled here rather than translated: `Json` is the value tree
(numbers restricted to the unsigned decimal integers that ever occur in a
manifest, i.e. `Date.now()` timestamps), `printJson` reproduces the
two-space pretty-printing of `JSON.stringify`, and `parseJsonAux` is a
recursive-descent `JSON.parse` with enough fuel for any input. -/

inductive Json where
  | str (s : String)
  | num (n : Nat)
  | bool (b : Bool)
  | null
  | arr (items : List Json)
  | obj (fields : List (String × Json))
deriving Repr

/-- Lower-case hex digit, as `JSON.stringify` uses in escapes. -/
def hexDigit (n : Nat) : Char :=
  if n < 10 then Char.ofNat (48 + n) else Char.ofNat (87 + n)

/-- How `JSON.stringify` escapes one character inside a string literal. -/
def escapeChar (c : Char) : List Char :=
  if c = '"' then ['\\', '"']
  else if c = '\\' then ['\\', '\\']
  else if c.toNat = 8 then ['\\', 'b']
  else if c.toNat = 9 then ['\\', 't']
  else if c.toNat = 10 then ['\\', 'n']
  else if c.toNat = 12 then ['\\', 'f']
  else if c.toNat = 13 then ['\\', 'r']
  else if c.toNat < 32 then ['\\', 'u', '0', '0', hexDigit (c.toNat / 16), hexDigit (c.toNat % 16)]
  else [c]

/-- A JSON string literal: quotes around the escaped characters. -/
def quoteString (s : String) : List Char :=
  '"' :: (s.data.map escapeChar).flatten ++ ['"']

/-- Decimal digits of an unsigned integer, most significant first. -/
def printNat (n : Nat) : List Char :=
  if n = 0 then ['0']
  else (Nat.digits 10 n).reverse.map (fun d => Char.ofNat (48 + d))

/-- The two-space indentation `JSON.stringify(..., null, 2)` puts in
front of a line at nesting depth `d`. -/
def indentChars (d : Nat) : List Char := List.replicate (2 * d) ' '

mutual
/-- `JSON.stringify(v, null, 2)` at nesting depth `d`. -/
def printJson (d : Nat) : Json → List Char
  | .str s => quoteString s
  | .num n => printNat n
  | .bool b => if b then ['t', 'r', 'u', 'e'] else ['f', 'a', 'l', 's', 'e']
  | .null => ['n', 'u', 'l', 'l']
  | .arr [] => ['[', ']']
  | .arr (v :: vs) =>
      '[' :: '\n' :: (printItemsArr (d + 1) v vs ++ '\n' :: (indentChars d ++ [']']))
  | .obj [] => ['{', '}']
  | .obj (f :: fs) =>
      '{' :: '\n' :: (printItemsObj (d + 1) f fs ++ '\n' :: (indentChars d ++ ['}']))
  termination_by j => sizeOf j
  decreasing_by all_goals (simp_wf <;> omega)

/-- The comma-and-newline separated members of a non-empty array. -/
def printItemsArr (d : Nat) (v : Json) (vs : List Json) : List Char :=
  (indentChars d ++ printJson d v) ++
    match vs with
    | [] => []
    | w :: ws => ',' :: '\n' :: printItemsArr d w ws
  termination_by 1 + sizeOf v + sizeOf vs
  decreasing_by all_goals (simp_wf <;> omega)

/-- The comma-and-newline separated members of a non-empty object. -/
def printItemsObj (d : Nat) : String × Json → List (String × Json) → List Char
  | (k, jv), fs =>
    (indentChars d ++ (quoteString k ++ ':' :: ' ' :: printJson d jv)) ++
      match fs with
      | [] => []
      | g :: gs => ',' :: '\n' :: printItemsObj d g gs
  termination_by f fs => 1 + sizeOf f + sizeOf fs
  decreasing_by all_goals (simp_wf <;> omega)
end

/-- `JSON.stringify(v, null, 2)`. -/
def jsonStringify (v : Json) : String := String.mk (printJson 0 v)

/-- JSON whitespace. -/
def isJsonWs (c : Char) : Bool := c = ' ' || c = '\t' || c = '\n' || c = '\r'

def skipWs : List Char → List Char
  | [] => []
  | c :: cs => if isJsonWs c then skipWs cs else c :: cs

/-- Value of a hex digit character. -/
def hexVal? (c : Char) : Option Nat :=
  if '0' ≤ c ∧ c ≤ '9' then some (c.toNat - 48)
  else if 'a' ≤ c ∧ c ≤ 'f' then some (c.toNat - 87)
  else if 'A' ≤ c ∧ c ≤ 'F' then some (c.toNat - 55)
  else none

/-- One escape sequence after a backslash inside a string literal.
(`\uXXXX` escapes that name lone surrogate halves are rejected; the
printer never emits them.) -/
def parseEscape : List Char → Option (Char × List Char)
  | [] => none
  | e :: cs =>
    if e = '"' then some ('"', cs)
    else if e = '\\' then some ('\\', cs)
    else if e = '/' then some ('/', cs)
    else if e = 'b' then some (Char.ofNat 8, cs)
    else if e = 'f' then some (Char.ofNat 12, cs)
    else if e = 'n' then some ('\n', cs)
    else if e = 'r' then some (Char.ofNat 13, cs)
    else if e = 't' then some (Char.ofNat 9, cs)
    else if e = 'u' then
      match cs with
      | h1 :: h2 :: h3 :: h4 :: cs2 =>
        (hexVal? h1).bind fun a =>
        (hexVal? h2).bind fun b =>
        (hexVal? h3).bind fun c =>
        (hexVal? h4).bind fun d =>
        (charFromNat? (a * 4096 + b * 256 + c * 16 + d)).bind fun ch =>
        some (ch, cs2)
      | _ => none
    else none

/-- String-literal body parser (after the opening quote): collects
characters until the closing quote.  `fuel` bounds the steps and is
always instantiated with the input length. -/
def parseStringAux : Nat → List Char → Option (List Char × List Char)
  | _, [] => none
  | 0, _ :: _ => none
  | fuel + 1, c :: cs =>
    if c = '"' then some ([], cs)
    else if c = '\\' then
      match parseEscape cs with
      | some (ch, rest) =>
        match parseStringAux fuel rest with
        | some (s, r) => some (ch :: s, r)
        | none => none
      | none => none
    else
      match parseStringAux fuel cs with
      | some (s, r) => some (c :: s, r)
      | none => none

/-- Digit-run parser with accumulator. -/
def parseNatAux : List Char → Nat → Nat × List Char
  | [], acc => (acc, [])
  | c :: cs, acc =>
    if c.isDigit then parseNatAux cs (acc * 10 + (c.toNat - 48)) else (acc, c :: cs)

mutual
/-- Recursive-descent JSON value parser (model of `JSON.parse`; numbers
restricted to unsigned decimal integers).  Returns the value and the
unconsumed input. -/
def parseJsonAux : Nat → List Char → Option (Json × List Char)
  | 0, _ => none
  | fuel + 1, l =>
    match skipWs l with
    | [] => none
    | c :: cs =>
      if c = '"' then
        match parseStringAux cs.length cs with
        | some (s, r) => some (.str (String.mk s), r)
        | none => none
      else if c.isDigit then
        let p := parseNatAux (c :: cs) 0
        some (.num p.1, p.2)
      else if c = 't' then
        match cs with
        | 'r' :: 'u' :: 'e' :: r => some (.bool true, r)
        | _ => none
      else if c = 'f' then
        match cs with
        | 'a' :: 'l' :: 's' :: 'e' :: r => some (.bool false, r)
        | _ => none
      else if c = 'n' then
        match cs with
        | 'u' :: 'l' :: 'l' :: r => some (.null, r)
        | _ => none
      else if c = '[' then
        match skipWs cs with
        | ']' :: r => some (.arr [], r)
        | cs2 => match parseArrayLoop fuel cs2 with
          | some (vs, r) => some (.arr vs, r)
          | none => none
      else if c = '{' then
        match skipWs cs with
        | '}' :: r => some (.obj [], r)
        | cs2 => match parseObjLoop fuel cs2 with
          | some (fs, r) => some (.obj fs, r)
          | none => none
      else none

/-- Members of a non-empty array, after `[`. -/
def parseArrayLoop : Nat → List Char → Option (List Json × List Char)
  | 0, _ => none
  | fuel + 1, l =>
    match parseJsonAux fuel l with
    | some (v, r) =>
      match skipWs r with
      | ',' :: r2 =>
        match parseArrayLoop fuel r2 with
        | some (vs, r3) => some (v :: vs, r3)
        | none => none
      | ']' :: r2 => some ([v], r2)
      | _ => none
    | none => none

/-- Members of a non-empty object, after `{`. -/
def parseObjLoop : Nat → List Char → Option (List (String × Json) × List Char)
  | 0, _ => none
  | fuel + 1, l =>
    match skipWs l with
    | '"' :: cs =>
      match parseStringAux cs.length cs with
      | some (k, r) =>
        match skipWs r with
        | ':' :: r2 =>
          match parseJsonAux fuel r2 with
          | some (v, r3) =>
            match skipWs r3 with
            | ',' :: r4 =>
              match parseObjLoop fuel r4 with
              | some (fs, r5) => some ((String.mk k, v) :: fs, r5)
              | none => none
            | '}' :: r4 => some ([(String.mk k, v)], r4)
            | _ => none
          | none => none
        | _ => none
      | none => none
    | _ => none
end

/-- `JSON.parse`: parse one value, allow trailing whitespace only. -/
def jsonParse (s : String) : Option Json :=
  match parseJsonAux (s.data.length + 1) s.data with
  | some (v, r) => if skipWs r = [] then some v else none
  | none => none

/-- Input whose head cannot be mistaken for a further digit. -/
def NoDigitHead (r : List Char) : Prop :=
  r = [] ∨ ∃ c cs, r = c :: cs ∧ c.isDigit = false

/-! ## Manifest codec

`updateGalleryManifest` serializes with
`utf8_to_b64(JSON.stringify(updatedArtworks, null, 2))` and deserializes
with `JSON.parse(b64_to_utf8(content.replace(/\n/g, '')))`. -/

/-- The JSON object literal `handlePublish` builds for an artwork, field
order as written there. -/
def Artwork.toJson (a : Artwork) : Json :=
  .obj [("id", .str a.id), ("imageUrl", .str a.imageUrl), ("title", .str a.title),
        ("description", .str a.description), ("medium", .str a.medium),
        ("tags", .arr (a.tags.map Json.str)), ("createdAt", .num a.createdAt)]

/-- Option-valued map over a list, failing if any element fails. -/
def mapOption (f : α → Option β) : List α → Option (List β)
  | [] => some []
  | x :: xs =>
    match f x, mapOption f xs with
    | some y, some ys => some (y :: ys)
    | _, _ => none

/-- Reading an artwork back out of a parsed JSON value (JS deep equality
of the parsed object with the original record). -/
def Artwork.fromJson? : Json → Option Artwork
  | .obj [("id", .str id), ("imageUrl", .str imageUrl), ("title", .str title),
      ("description", .str description), ("medium", .str medium),
      ("tags", .arr tagVals), ("createdAt", .num createdAt)] =>
    match mapOption (fun t => match t with | .str s => some s | _ => none) tagVals with
    | some tags => some ⟨id, imageUrl, title, description, medium, tags, createdAt⟩
    | none => none
  | _ => none

/-- `content.replace(/\n/g, '')` — `updateGalleryManifest` strips the
newlines the contents API wraps Base64 text with. -/
def stripNewlines (s : String) : String :=
  String.mk (s.data.filter (fun c => c ≠ '\n'))

/-- The wire encoding of a manifest:
`utf8_to_b64(JSON.stringify(artworks, null, 2))` over the array of
artwork objects (arbitrary JSON items, since the fetched array is
re-serialized as-is with the new record prepended). -/
def encodeManifestJson (items : List Json) : String :=
  utf8_to_b64 (jsonStringify (.arr items))

/-- Manifest encoding of a list of artworks. -/
def encodeManifest (l : List Artwork) : String :=
  encodeManifestJson (l.map Artwork.toJson)

/-- The read direction of the codec as `updateGalleryManifest` performs
it: strip newlines, Base64-decode, UTF-8 decode, `JSON.parse`.  `none`
models the thrown exception the surrounding `try` catches. -/
def decodeManifestJson (content : String) : Option Json :=
  match b64_to_utf8 (stripNewlines content) with
  | some jsonString => jsonParse jsonString
  | none => none

/-- Decoding all the way back to artwork records. -/
def decodeManifest (content : String) : Option (List Artwork) :=
  match decodeManifestJson content with
  | some (.arr items) => mapOption Artwork.fromJson? items
  | _ => none

/-! ## JSON printer-parser inversion, whitespace and token lemmas -/

theorem skipWs_ws_cons (c : Char) (l : List Char) (h : isJsonWs c = true) :
    skipWs (c :: l) = skipWs l := by
  simp [skipWs, h]

theorem skipWs_not_ws (c : Char) (l : List Char) (h : isJsonWs c = false) :
    skipWs (c :: l) = c :: l := by
  simp [skipWs, h]

theorem skipWs_ws_append (ws l : List Char) (h : ∀ c ∈ ws, isJsonWs c = true) :
    skipWs (ws ++ l) = skipWs l := by
  induction ws with
  | nil => rfl
  | cons c cs ih =>
    rw [List.cons_append, skipWs_ws_cons _ _ (h c (by simp)), ih (fun c hc => h c (by simp [hc]))]

theorem skipWs_indent (d : Nat) (l : List Char) :
    skipWs (indentChars d ++ l) = skipWs l := by
  apply skipWs_ws_append
  intro c hc
  rw [indentChars, List.mem_replicate] at hc
  rw [hc.2]
  rfl

theorem skipWs_newline (l : List Char) : skipWs ('\n' :: l) = skipWs l :=
  skipWs_ws_cons _ _ (by rfl)

theorem hexVal?_hexDigit : ∀ n < 16, hexVal? (hexDigit n) = some n := by decide

/-- Characters produced for decimal digits. -/
def digitChar (d : Nat) : Char := Char.ofNat (48 + d)

theorem digitChar_isDigit : ∀ d < 10, (digitChar d).isDigit = true := by decide

theorem digitChar_toNat : ∀ d < 10, (digitChar d).toNat - 48 = d := by decide

theorem printNat_eq_map_digits (n : Nat) :
    printNat n = (if n = 0 then [0] else (Nat.digits 10 n).reverse).map digitChar := by
  unfold printNat digitChar
  split <;> simp

theorem isDigit_ne_quote (c : Char) (h : c.isDigit = true) : c ≠ '"' := by
  intro hc
  subst hc
  simp [Char.isDigit] at h

theorem isDigit_ne_ws (c : Char) (h : c.isDigit = true) : isJsonWs c = false := by
  revert h
  simp only [Char.isDigit, isJsonWs, Bool.and_eq_true, decide_eq_true_eq, Bool.or_eq_true]
  intro ⟨h1, h2⟩
  have hn1 : ('0' : Char).toNat ≤ c.toNat := h1
  simp only [decide_eq_true_eq, Bool.or_eq_false_iff, decide_eq_false_iff_not]
  refine ⟨⟨⟨?_, ?_⟩, ?_⟩, ?_⟩ <;>
    (intro hc; subst hc; revert hn1; decide)

/-- `parseNatAux` reads back a digit-character run. -/
theorem parseNatAux_digits (ds : List Nat) (hds : ∀ d ∈ ds, d < 10) :
    ∀ (acc : Nat) (rest : List Char),
      (rest = [] ∨ ∃ c cs, rest = c :: cs ∧ c.isDigit = false) →
      parseNatAux (ds.map digitChar ++ rest) acc =
        (ds.foldl (fun a d => a * 10 + d) acc, rest) := by
  induction ds with
  | nil =>
    intro acc rest hrest
    rcases hrest with rfl | ⟨c, cs, rfl, hc⟩
    · rfl
    · simp [parseNatAux, hc]
  | cons d ds ih =>
    intro acc rest hrest
    have hd : d < 10 := hds d (by simp)
    simp only [List.map_cons, List.cons_append, parseNatAux,
      digitChar_isDigit d hd, if_true, digitChar_toNat d hd]
    exact ih (fun x hx => hds x (by simp [hx])) _ rest hrest

theorem foldr_digits_eq_ofDigits (l : List Nat) :
    l.foldr (fun d a => a * 10 + d) 0 = Nat.ofDigits 10 l := by
  induction l with
  | nil => rfl
  | cons d t ih =>
    simp only [List.foldr_cons, ih, Nat.ofDigits_cons]
    ring

/-- Reading the decimal print of `n` back gives `n`. -/
theorem parseNatAux_printNat (n : Nat) (rest : List Char)
    (hrest : rest = [] ∨ ∃ c cs, rest = c :: cs ∧ c.isDigit = false) :
    parseNatAux (printNat n ++ rest) 0 = (n, rest) := by
  rw [printNat_eq_map_digits]
  by_cases hn : n = 0
  · subst hn
    rw [if_pos rfl, parseNatAux_digits [0] (by simp) 0 rest hrest]
    rfl
  · rw [if_neg hn, parseNatAux_digits _ (fun d hd => Nat.digits_lt_base (by norm_num)
      (by simpa using hd)) 0 rest hrest]
    rw [List.foldl_reverse, foldr_digits_eq_ofDigits, Nat.ofDigits_digits]

theorem escapeChar_ne_nil (c : Char) : escapeChar c ≠ [] := by
  unfold escapeChar
  repeat' split
  all_goals simp

/-- Step equation of the string-body parser on a cons cell. -/
theorem parseStringAux_cons (fuel : Nat) (c : Char) (cs : List Char) :
    parseStringAux (fuel + 1) (c :: cs) =
      if c = '"' then some ([], cs)
      else if c = '\\' then
        match parseEscape cs with
        | some (ch, rest) => (parseStringAux fuel rest).map (fun p => (ch :: p.1, p.2))
        | none => none
      else (parseStringAux fuel cs).map (fun p => (c :: p.1, p.2)) := by
  show (if c = '"' then some ([], cs)
    else if c = '\\' then
      match parseEscape cs with
      | some (ch, rest) =>
        match parseStringAux fuel rest with
        | some (s, r) => some (ch :: s, r)
        | none => none
      | none => none
    else
      match parseStringAux fuel cs with
      | some (s, r) => some (c :: s, r)
      | none => none) = _
  by_cases hq : c = '"'
  · rw [if_pos hq, if_pos hq]
  · rw [if_neg hq, if_neg hq]
    by_cases hbs : c = '\\'
    · rw [if_pos hbs, if_pos hbs]
      cases hpe : parseEscape cs with
      | none => rfl
      | some pr =>
        obtain ⟨ch, rest⟩ := pr
        show (match parseStringAux fuel rest with
          | some (s, r) => some (ch :: s, r)
          | none => none) = (parseStringAux fuel rest).map (fun p => (ch :: p.1, p.2))
        cases parseStringAux fuel rest with
        | none => rfl
        | some p => rfl
    · rw [if_neg hbs, if_neg hbs]
      cases parseStringAux fuel cs with
      | none => rfl
      | some p => rfl

/-- `parseStringAux` undoes `escapeChar`-escaping, one character. -/
theorem parseStringAux_escape_cons (c : Char) (tail : List Char) (fuel : Nat) :
    parseStringAux (fuel + 1) (escapeChar c ++ tail) =
      (parseStringAux fuel tail).map (fun p => (c :: p.1, p.2)) := by
  unfold escapeChar
  by_cases hq : c = '"'
  · subst hq
    rw [if_pos rfl]
    show parseStringAux (fuel + 1) ('\\' :: '"' :: tail) = _
    rw [parseStringAux_cons, if_neg (by decide), if_pos rfl]
    rw [show parseEscape ('"' :: tail) = some ('"', tail) from rfl]
  · rw [if_neg hq]
    by_cases hbs : c = '\\'
    · subst hbs
      rw [if_pos rfl]
      show parseStringAux (fuel + 1) ('\\' :: '\\' :: tail) = _
      rw [parseStringAux_cons, if_neg (by decide), if_pos rfl]
      rw [show parseEscape ('\\' :: tail) = some ('\\', tail) from rfl]
    · rw [if_neg hbs]
      have hofnat : ∀ m : Nat, c.toNat = m → Char.ofNat m = c := by
        intro m hm
        rw [← hm, Char.ofNat_toNat]
      by_cases h8 : c.toNat = 8
      · rw [if_pos h8]
        show parseStringAux (fuel + 1) ('\\' :: 'b' :: tail) = _
        rw [parseStringAux_cons, if_neg (by decide), if_pos rfl]
        rw [show parseEscape ('b' :: tail) = some (Char.ofNat 8, tail) from rfl, hofnat 8 h8]
      · rw [if_neg h8]
        by_cases h9 : c.toNat = 9
        · rw [if_pos h9]
          show parseStringAux (fuel + 1) ('\\' :: 't' :: tail) = _
          rw [parseStringAux_cons, if_neg (by decide), if_pos rfl]
          rw [show parseEscape ('t' :: tail) = some (Char.ofNat 9, tail) from rfl, hofnat 9 h9]
        · rw [if_neg h9]
          by_cases h10 : c.toNat = 10
          · rw [if_pos h10]
            show parseStringAux (fuel + 1) ('\\' :: 'n' :: tail) = _
            rw [parseStringAux_cons, if_neg (by decide), if_pos rfl]
            rw [show parseEscape ('n' :: tail) = some ('\n', tail) from rfl]
            rw [show ('\n' : Char) = c from hofnat 10 h10]
          · rw [if_neg h10]
            by_cases h12 : c.toNat = 12
            · rw [if_pos h12]
              show parseStringAux (fuel + 1) ('\\' :: 'f' :: tail) = _
              rw [parseStringAux_cons, if_neg (by decide), if_pos rfl]
              rw [show parseEscape ('f' :: tail) = some (Char.ofNat 12, tail) from rfl,
                hofnat 12 h12]
            · rw [if_neg h12]
              by_cases h13 : c.toNat = 13
              · rw [if_pos h13]
                show parseStringAux (fuel + 1) ('\\' :: 'r' :: tail) = _
                rw [parseStringAux_cons, if_neg (by decide), if_pos rfl]
                rw [show parseEscape ('r' :: tail) = some (Char.ofNat 13, tail) from rfl,
                  hofnat 13 h13]
              · rw [if_neg h13]
                by_cases hctl : c.toNat < 32
                · rw [if_pos hctl]
                  show parseStringAux (fuel + 1)
                    ('\\' :: 'u' :: '0' :: '0' :: hexDigit (c.toNat / 16) ::
                      hexDigit (c.toNat % 16) :: tail) = _
                  rw [parseStringAux_cons, if_neg (by decide), if_pos rfl]
                  have hesc : parseEscape ('u' :: '0' :: '0' :: hexDigit (c.toNat / 16) ::
                      hexDigit (c.toNat % 16) :: tail) = some (c, tail) := by
                    show ((hexVal? '0').bind fun a =>
                      (hexVal? '0').bind fun b =>
                      (hexVal? (hexDigit (c.toNat / 16))).bind fun x =>
                      (hexVal? (hexDigit (c.toNat % 16))).bind fun y =>
                      (charFromNat? (a * 4096 + b * 256 + x * 16 + y)).bind fun ch =>
                      some (ch, tail)) = some (c, tail)
                    rw [show hexVal? '0' = some 0 from rfl]
                    rw [hexVal?_hexDigit _ (by omega), hexVal?_hexDigit _ (by omega)]
                    simp only [Option.some_bind]
                    rw [show 0 * 4096 + 0 * 256 + c.toNat / 16 * 16 + c.toNat % 16 =
                      c.toNat from by omega]
                    rw [charFromNat?_toNat]
                    rfl
                  rw [hesc]
                · rw [if_neg hctl]
                  show parseStringAux (fuel + 1) (c :: tail) = _
                  rw [parseStringAux_cons, if_neg hq, if_neg hbs]

/-- `parseStringAux` with fuel covering the escaped body inverts
`escapeChar`-escaping up to the closing quote. -/
theorem parseStringAux_quoted (cs : List Char) :
    ∀ (fuel : Nat) (rest : List Char), ((cs.map escapeChar).flatten).length < fuel →
      parseStringAux fuel ((cs.map escapeChar).flatten ++ '"' :: rest) = some (cs, rest) := by
  induction cs with
  | nil =>
    intro fuel rest hfuel
    obtain ⟨f, rfl⟩ : ∃ f, fuel = f + 1 := ⟨fuel - 1, by omega⟩
    show parseStringAux (f + 1) ('"' :: rest) = _
    rw [parseStringAux_cons, if_pos rfl]
  | cons c cs ih =>
    intro fuel rest hfuel
    simp only [List.map_cons, List.flatten_cons, List.length_append] at hfuel ⊢
    obtain ⟨f, rfl⟩ : ∃ f, fuel = f + 1 :=
      ⟨fuel - 1, by have := List.length_pos.mpr (escapeChar_ne_nil c); omega⟩
    rw [List.append_assoc]
    rw [parseStringAux_escape_cons, ih f rest (by
      have := List.length_pos.mpr (escapeChar_ne_nil c); omega)]
    rfl

theorem printNat_ne_nil (n : Nat) : printNat n ≠ [] := by
  rw [printNat_eq_map_digits]
  by_cases hn : n = 0
  · subst hn; simp
  · rw [if_neg hn]
    simp [Nat.digits_ne_nil_iff_ne_zero, hn]

theorem printNat_head_digit (n : Nat) : ∀ c cs, printNat n = c :: cs → c.isDigit = true := by
  intro c cs h
  rw [printNat_eq_map_digits] at h
  by_cases hn : n = 0
  · subst hn
    rw [if_pos rfl] at h
    simp only [List.map_cons, List.map_nil, List.cons.injEq] at h
    rw [← h.1]
    decide
  · rw [if_neg hn] at h
    rcases hd : (Nat.digits 10 n).reverse with _ | ⟨d, ds⟩
    · rw [hd] at h; simp at h
    · rw [hd] at h
      simp only [List.map_cons, List.cons.injEq] at h
      have hdlt : d < 10 := by
        apply Nat.digits_lt_base (by norm_num)
        have : d ∈ (Nat.digits 10 n).reverse := by rw [hd]; simp
        simpa using this
      rw [← h.1]
      exact digitChar_isDigit d hdlt

/-- Step equation of the value parser at positive fuel. -/
theorem parseJsonAux_succ (fuel : Nat) (l : List Char) :
    parseJsonAux (fuel + 1) l =
      match skipWs l with
      | [] => none
      | c :: cs =>
        if c = '"' then
          match parseStringAux cs.length cs with
          | some (s, r) => some (.str (String.mk s), r)
          | none => none
        else if c.isDigit then
          let p := parseNatAux (c :: cs) 0
          some (.num p.1, p.2)
        else if c = 't' then
          match cs with
          | 'r' :: 'u' :: 'e' :: r => some (.bool true, r)
          | _ => none
        else if c = 'f' then
          match cs with
          | 'a' :: 'l' :: 's' :: 'e' :: r => some (.bool false, r)
          | _ => none
        else if c = 'n' then
          match cs with
          | 'u' :: 'l' :: 'l' :: r => some (.null, r)
          | _ => none
        else if c = '[' then
          match skipWs cs with
          | ']' :: r => some (.arr [], r)
          | cs2 => match parseArrayLoop fuel cs2 with
            | some (vs, r) => some (.arr vs, r)
            | none => none
        else if c = '{' then
          match skipWs cs with
          | '}' :: r => some (.obj [], r)
          | cs2 => match parseObjLoop fuel cs2 with
            | some (fs, r) => some (.obj fs, r)
            | none => none
        else none := rfl

/-- Step equation of the array-member parser at positive fuel. -/
theorem parseArrayLoop_succ (fuel : Nat) (l : List Char) :
    parseArrayLoop (fuel + 1) l =
      match parseJsonAux fuel l with
      | some (v, r) =>
        match skipWs r with
        | ',' :: r2 =>
          match parseArrayLoop fuel r2 with
          | some (vs, r3) => some (v :: vs, r3)
          | none => none
        | ']' :: r2 => some ([v], r2)
        | _ => none
      | none => none := rfl

/-- Step equation of the object-member parser at positive fuel. -/
theorem parseObjLoop_succ (fuel : Nat) (l : List Char) :
    parseObjLoop (fuel + 1) l =
      match skipWs l with
      | '"' :: cs =>
        match parseStringAux cs.length cs with
        | some (k, r) =>
          match skipWs r with
          | ':' :: r2 =>
            match parseJsonAux fuel r2 with
            | some (v, r3) =>
              match skipWs r3 with
              | ',' :: r4 =>
                match parseObjLoop fuel r4 with
                | some (fs, r5) => some ((String.mk k, v) :: fs, r5)
                | none => none
              | '}' :: r4 => some ([(String.mk k, v)], r4)
              | _ => none
            | none => none
          | _ => none
        | none => none
      | _ => none := rfl

/-- The value parser only sees its input through `skipWs`, so an
all-whitespace prefix is irrelevant. -/
theorem parseJsonAux_ws (ws l : List Char) (fuel : Nat)
    (h : ∀ c ∈ ws, isJsonWs c = true) :
    parseJsonAux (fuel + 1) (ws ++ l) = parseJsonAux (fuel + 1) l := by
  rw [parseJsonAux_succ, parseJsonAux_succ, skipWs_ws_append ws l h]

theorem parseArrayLoop_ws (ws l : List Char) (fuel : Nat)
    (h : ∀ c ∈ ws, isJsonWs c = true) (hfuel : 1 ≤ fuel) :
    parseArrayLoop fuel (ws ++ l) = parseArrayLoop fuel l := by
  obtain ⟨f, rfl⟩ : ∃ f, fuel = f + 1 := ⟨fuel - 1, by omega⟩
  rw [parseArrayLoop_succ, parseArrayLoop_succ]
  cases f with
  | zero => rfl
  | succ f' => rw [parseJsonAux_ws ws l f' h]

theorem parseObjLoop_ws (ws l : List Char) (fuel : Nat)
    (h : ∀ c ∈ ws, isJsonWs c = true) (hfuel : 1 ≤ fuel) :
    parseObjLoop fuel (ws ++ l) = parseObjLoop fuel l := by
  obtain ⟨f, rfl⟩ : ∃ f, fuel = f + 1 := ⟨fuel - 1, by omega⟩
  rw [parseObjLoop_succ, parseObjLoop_succ, skipWs_ws_append ws l h]

/-- Unfolding equations for the printer (it is defined by well-founded
recursion, so these are established once and used everywhere). -/
theorem printJson_str (d : Nat) (s : String) : printJson d (.str s) = quoteString s := by
  simp [printJson]

theorem printJson_num (d : Nat) (n : Nat) : printJson d (.num n) = printNat n := by
  simp [printJson]

theorem printJson_true (d : Nat) : printJson d (.bool true) = ['t', 'r', 'u', 'e'] := by
  simp [printJson]

theorem printJson_false (d : Nat) : printJson d (.bool false) = ['f', 'a', 'l', 's', 'e'] := by
  simp [printJson]

theorem printJson_null (d : Nat) : printJson d .null = ['n', 'u', 'l', 'l'] := by
  simp [printJson]

theorem printJson_arr_nil (d : Nat) : printJson d (.arr []) = ['[', ']'] := by
  simp [printJson]

theorem printJson_arr_cons (d : Nat) (v : Json) (vs : List Json) :
    printJson d (.arr (v :: vs)) =
      '[' :: '\n' :: (printItemsArr (d + 1) v vs ++ '\n' :: (indentChars d ++ [']'])) := by
  simp [printJson]

theorem printJson_obj_nil (d : Nat) : printJson d (.obj []) = ['{', '}'] := by
  simp [printJson]

theorem printJson_obj_cons (d : Nat) (f : String × Json) (fs : List (String × Json)) :
    printJson d (.obj (f :: fs)) =
      '{' :: '\n' :: (printItemsObj (d + 1) f fs ++ '\n' :: (indentChars d ++ ['}'])) := by
  simp [printJson]

theorem printItemsArr_eq (d : Nat) (v : Json) (vs : List Json) :
    printItemsArr d v vs =
      (indentChars d ++ printJson d v) ++
        match vs with
        | [] => []
        | w :: ws => ',' :: '\n' :: printItemsArr d w ws := by
  rw [printItemsArr.eq_def]

theorem printItemsObj_eq (d : Nat) (k : String) (jv : Json) (fs : List (String × Json)) :
    printItemsObj d (k, jv) fs =
      (indentChars d ++ (quoteString k ++ ':' :: ' ' :: printJson d jv)) ++
        match fs with
        | [] => []
        | g :: gs => ',' :: '\n' :: printItemsObj d g gs := by
  rw [printItemsObj.eq_def]

/-- Every printed JSON value starts with a non-whitespace character that
is not a closing bracket. -/
theorem printJson_head (d : Nat) (w : Json) :
    ∃ c cs, printJson d w = c :: cs ∧ isJsonWs c = false ∧ c ≠ ']' ∧ c ≠ '}' := by
  cases w with
  | str s =>
    refine ⟨'"', (s.data.map escapeChar).flatten ++ ['"'], ?_, by decide, by decide, by decide⟩
    rw [printJson_str]
    rfl
  | num n =>
    rcases hpn : printNat n with _ | ⟨c, cs⟩
    · exact absurd hpn (printNat_ne_nil n)
    · have hc := printNat_head_digit n c cs hpn
      refine ⟨c, cs, ?_, isDigit_ne_ws c hc, ?_, ?_⟩
      · rw [printJson_num]
        exact hpn
      · intro hcc; subst hcc; simp [Char.isDigit] at hc
      · intro hcc; subst hcc; simp [Char.isDigit] at hc
  | bool b =>
    cases b with
    | true => exact ⟨'t', _, printJson_true d, by decide, by decide, by decide⟩
    | false => exact ⟨'f', _, printJson_false d, by decide, by decide, by decide⟩
  | null => exact ⟨'n', _, printJson_null d, by decide, by decide, by decide⟩
  | arr items =>
    cases items with
    | nil => exact ⟨'[', _, printJson_arr_nil d, by decide, by decide, by decide⟩
    | cons v vs => exact ⟨'[', _, printJson_arr_cons d v vs, by decide, by decide, by decide⟩
  | obj fields =>
    cases fields with
    | nil => exact ⟨'{', _, printJson_obj_nil d, by decide, by decide, by decide⟩
    | cons f fs => exact ⟨'{', _, printJson_obj_cons d f fs, by decide, by decide, by decide⟩

/-- Parsing a printed string literal as a value. -/
theorem parseJsonAux_quoteString (s : String) (rest : List Char) (fuel : Nat)
    (hfuel : 1 ≤ fuel) :
    parseJsonAux fuel (quoteString s ++ rest) = some (.str s, rest) := by
  obtain ⟨f, rfl⟩ : ∃ f, fuel = f + 1 := ⟨fuel - 1, by omega⟩
  rw [parseJsonAux_succ]
  show (match skipWs ('"' :: ((s.data.map escapeChar).flatten ++ ['"'] ++ rest)) with
    | [] => none
    | c :: cs => _) = _
  rw [skipWs_not_ws _ _ (by decide)]
  show (if ('"' : Char) = '"' then
    match parseStringAux ((s.data.map escapeChar).flatten ++ ['"'] ++ rest).length
      ((s.data.map escapeChar).flatten ++ ['"'] ++ rest) with
    | some (str, r) => some (Json.str (String.mk str), r)
    | none => none
    else _) = _
  rw [if_pos rfl, List.append_assoc]
  show (match parseStringAux ((s.data.map escapeChar).flatten ++ '"' :: rest).length
      ((s.data.map escapeChar).flatten ++ '"' :: rest) with
    | some (str, r) => some (Json.str (String.mk str), r)
    | none => none) = _
  rw [parseStringAux_quoted s.data _ rest (by simp [List.length_append])]

/-- Parsing a printed unsigned integer as a value. -/
theorem parseJsonAux_printNat (n : Nat) (rest : List Char) (fuel : Nat)
    (hfuel : 1 ≤ fuel) (hrest : NoDigitHead rest) :
    parseJsonAux fuel (printNat n ++ rest) = some (.num n, rest) := by
  obtain ⟨f, rfl⟩ : ∃ f, fuel = f + 1 := ⟨fuel - 1, by omega⟩
  rw [parseJsonAux_succ]
  rcases hpn : printNat n with _ | ⟨c, cs⟩
  · exact absurd hpn (printNat_ne_nil n)
  · have hc := printNat_head_digit n c cs hpn
    rw [List.cons_append, skipWs_not_ws _ _ (isDigit_ne_ws c hc)]
    show (if c = '"' then
      match parseStringAux (cs ++ rest).length (cs ++ rest) with
      | some (str, r) => some (Json.str (String.mk str), r)
      | none => none
      else if c.isDigit then
      let p := parseNatAux (c :: (cs ++ rest)) 0
      some (Json.num p.1, p.2) else _) = _
    rw [if_neg (isDigit_ne_quote c hc), if_pos hc]
    rw [show c :: (cs ++ rest) = (c :: cs) ++ rest from rfl, ← hpn,
      parseNatAux_printNat n rest hrest]

/-- A printed value parses back with any fuel at least its printed
length, for any continuation that cannot extend a number literal. -/
def ParsesBack (d : Nat) (w : Json) : Prop :=
  ∀ (r : List Char) (f : Nat), NoDigitHead r → (printJson d w).length ≤ f →
    parseJsonAux f (printJson d w ++ r) = some (w, r)

theorem parsesBack_str (d : Nat) (s : String) : ParsesBack d (.str s) := by
  intro r f _ hf
  rw [printJson_str] at hf ⊢
  apply parseJsonAux_quoteString s r f
  have : 1 ≤ (quoteString s).length := by
    simp [quoteString]
  omega

theorem parsesBack_num (d : Nat) (n : Nat) : ParsesBack d (.num n) := by
  intro r f hnd hf
  rw [printJson_num] at hf ⊢
  apply parseJsonAux_printNat n r f ?_ hnd
  have : printNat n ≠ [] := printNat_ne_nil n
  have : 1 ≤ (printNat n).length := by
    cases hpn : printNat n with
    | nil => exact absurd hpn (printNat_ne_nil n)
    | cons c cs => simp
  omega

/-- What follows the first member of a printed non-empty array. -/
def arrTail (d : Nat) (vs : List Json) (rest : List Char) : List Char :=
  match vs with
  | [] => '\n' :: (indentChars d ++ ']' :: rest)
  | w :: ws => ',' :: '\n' :: (printItemsArr (d + 1) w ws ++ '\n' :: (indentChars d ++ ']' :: rest))

theorem printItemsArr_split (d : Nat) (v : Json) (vs : List Json) (rest : List Char) :
    printItemsArr (d + 1) v vs ++ '\n' :: (indentChars d ++ ']' :: rest) =
      indentChars (d + 1) ++ (printJson (d + 1) v ++ arrTail d vs rest) := by
  rw [printItemsArr_eq]
  cases vs with
  | nil => simp [arrTail]
  | cons w ws => simp [arrTail]

theorem noDigitHead_arrTail (d : Nat) (vs : List Json) (rest : List Char) :
    NoDigitHead (arrTail d vs rest) := by
  cases vs with
  | nil => exact Or.inr ⟨'\n', _, rfl, by decide⟩
  | cons w ws => exact Or.inr ⟨',', _, rfl, by decide⟩

/-- The member loop parses the printed members of a non-empty array,
first member's indentation already consumed. -/
theorem parseArrayLoop_items (d : Nat) (vs : List Json) :
    ∀ (v : Json) (rest : List Char) (fuel : Nat),
      (∀ w ∈ v :: vs, ParsesBack (d + 1) w) →
      (printItemsArr (d + 1) v vs).length + 1 ≤ fuel →
      parseArrayLoop fuel (printJson (d + 1) v ++ arrTail d vs rest) = some (v :: vs, rest) := by
  induction vs with
  | nil =>
    intro v rest fuel hv hfuel
    obtain ⟨f, rfl⟩ : ∃ f, fuel = f + 1 := ⟨fuel - 1, by omega⟩
    rw [parseArrayLoop_succ]
    have hlen : (printJson (d + 1) v).length ≤ f := by
      rw [printItemsArr_eq] at hfuel
      simp only [List.length_append, List.length_nil] at hfuel
      omega
    rw [hv v (by simp) (arrTail d [] rest) f (noDigitHead_arrTail d [] rest) hlen]
    show (match skipWs (arrTail d [] rest) with
      | ',' :: r2 =>
        match parseArrayLoop f r2 with
        | some (vs, r3) => some (v :: vs, r3)
        | none => none
      | ']' :: r2 => some ([v], r2)
      | _ => none) = some ([v], rest)
    rw [show arrTail d [] rest = '\n' :: (indentChars d ++ ']' :: rest) from rfl,
      skipWs_newline, skipWs_indent, skipWs_not_ws _ _ (by decide)]
    rfl
  | cons w ws ih =>
    intro v rest fuel hv hfuel
    obtain ⟨f, rfl⟩ : ∃ f, fuel = f + 1 := ⟨fuel - 1, by omega⟩
    rw [parseArrayLoop_succ]
    have hfl : (printItemsArr (d + 1) v (w :: ws)).length ≤ f := by omega
    rw [printItemsArr_eq] at hfl
    simp only [List.length_append, List.length_cons] at hfl
    have hlen : (printJson (d + 1) v).length ≤ f := by omega
    rw [hv v (by simp) (arrTail d (w :: ws) rest) f (noDigitHead_arrTail d _ rest) hlen]
    show (match skipWs (arrTail d (w :: ws) rest) with
      | ',' :: r2 =>
        match parseArrayLoop f r2 with
        | some (vs, r3) => some (v :: vs, r3)
        | none => none
      | ']' :: r2 => some ([v], r2)
      | _ => none) = some (v :: w :: ws, rest)
    rw [show arrTail d (w :: ws) rest =
      ',' :: '\n' :: (printItemsArr (d + 1) w ws ++ '\n' :: (indentChars d ++ ']' :: rest))
      from rfl]
    rw [skipWs_not_ws _ _ (by decide)]
    show (match parseArrayLoop f
        ('\n' :: (printItemsArr (d + 1) w ws ++ '\n' :: (indentChars d ++ ']' :: rest))) with
      | some (vs, r3) => some (v :: vs, r3)
      | none => none) = some (v :: w :: ws, rest)
    rw [show ('\n' :: (printItemsArr (d + 1) w ws ++ '\n' :: (indentChars d ++ ']' :: rest))) =
      ('\n' :: indentChars (d + 1)) ++ (printJson (d + 1) w ++ arrTail d ws rest) from by
        rw [List.cons_append, printItemsArr_split d w ws rest]]
    rw [parseArrayLoop_ws ('\n' :: indentChars (d + 1)) _ f (by
      intro c hc
      simp only [List.mem_cons] at hc
      rcases hc with rfl | hc
      · rfl
      · rw [indentChars, List.mem_replicate] at hc
        rw [hc.2]
        rfl) (by omega)]
    rw [ih w rest f (fun x hx => hv x (by simp [hx])) (by omega)]

/-- A printed array parses back, given that its members do. -/
theorem parsesBack_arr (d : Nat) (items : List Json)
    (hv : ∀ w ∈ items, ParsesBack (d + 1) w) : ParsesBack d (.arr items) := by
  intro r f hnd hf
  cases items with
  | nil =>
    rw [printJson_arr_nil] at hf ⊢
    obtain ⟨f', rfl⟩ : ∃ g, f = g + 1 := ⟨f - 1, by simp at hf; omega⟩
    rw [parseJsonAux_succ]
    rfl
  | cons v vs =>
    rw [printJson_arr_cons] at hf ⊢
    obtain ⟨f', rfl⟩ : ∃ g, f = g + 1 := ⟨f - 1, by simp at hf; omega⟩
    rw [parseJsonAux_succ, List.cons_append, List.cons_append]
    rw [skipWs_not_ws _ _ (by decide)]
    have hsplit : (printItemsArr (d + 1) v vs ++ '\n' :: (indentChars d ++ [']'])) ++ r =
        indentChars (d + 1) ++ (printJson (d + 1) v ++ arrTail d vs r) := by
      rw [List.append_assoc, show ('\n' :: (indentChars d ++ [']'])) ++ r =
        '\n' :: (indentChars d ++ ']' :: r) from by simp, printItemsArr_split]
    show (match skipWs ('\n' :: ((printItemsArr (d + 1) v vs ++
        '\n' :: (indentChars d ++ [']'])) ++ r)) with
      | ']' :: r2 => some (Json.arr [], r2)
      | cs2 =>
        match parseArrayLoop f' cs2 with
        | some (vs2, r2) => some (Json.arr vs2, r2)
        | none => none) = some (Json.arr (v :: vs), r)
    rw [skipWs_newline, hsplit, skipWs_indent]
    obtain ⟨c0, cs0, hpv, hws0, hbr0, _⟩ := printJson_head (d + 1) v
    rw [hpv, List.cons_append, skipWs_not_ws _ _ hws0]
    have harr : parseArrayLoop f' (c0 :: (cs0 ++ arrTail d vs r)) = some (v :: vs, r) := by
      rw [← List.cons_append, ← hpv]
      apply parseArrayLoop_items d vs v r f' hv
      simp only [List.length_append, List.length_cons] at hf
      omega
    split
    · rename_i r2 heq
      rw [List.cons.injEq] at heq
      exact absurd heq.1 hbr0
    · rw [harr]

/-- The member loop parses the printed members of a non-empty object. -/
theorem parseObjLoop_items (d : Nat) (fs : List (String × Json)) :
    ∀ (k : String) (jv : Json) (rest : List Char) (fuel : Nat),
      (∀ g ∈ (k, jv) :: fs, ParsesBack (d + 1) g.2) →
      (printItemsObj (d + 1) (k, jv) fs).length + 1 ≤ fuel →
      parseObjLoop fuel
        (printItemsObj (d + 1) (k, jv) fs ++ '\n' :: (indentChars d ++ '}' :: rest)) =
        some ((k, jv) :: fs, rest) := by
  induction fs with
  | nil =>
    intro k jv rest fuel hv hfuel
    obtain ⟨f, rfl⟩ : ∃ f, fuel = f + 1 := ⟨fuel - 1, by omega⟩
    rw [printItemsObj_eq] at hfuel ⊢
    simp only [List.length_append, List.length_nil, List.length_cons, List.append_nil] at hfuel ⊢
    rw [parseObjLoop_succ]
    rw [List.append_assoc, skipWs_indent]
    rw [show quoteString k ++ ':' :: ' ' :: printJson (d + 1) jv = '"' ::
      ((k.data.map escapeChar).flatten ++ '"' :: (':' :: ' ' :: printJson (d + 1) jv))
      from by simp [quoteString]]
    rw [List.cons_append, skipWs_not_ws _ _ (by decide)]
    show (match parseStringAux (((k.data.map escapeChar).flatten ++
        '"' :: (':' :: ' ' :: printJson (d + 1) jv)) ++
        '\n' :: (indentChars d ++ '}' :: rest)).length
        (((k.data.map escapeChar).flatten ++ '"' :: (':' :: ' ' :: printJson (d + 1) jv)) ++
        '\n' :: (indentChars d ++ '}' :: rest)) with
      | some (key, r) =>
        match skipWs r with
        | ':' :: r2 =>
          match parseJsonAux f r2 with
          | some (v, r3) =>
            match skipWs r3 with
            | ',' :: r4 =>
              match parseObjLoop f r4 with
              | some (fs2, r5) => some ((String.mk key, v) :: fs2, r5)
              | none => none
            | '}' :: r4 => some ([(String.mk key, v)], r4)
            | _ => none
          | none => none
        | _ => none
      | none => none) = some ([(k, jv)], rest)
    rw [List.append_assoc]
    rw [show '"' :: (':' :: ' ' :: printJson (d + 1) jv) ++ '\n' :: (indentChars d ++ '}' :: rest) =
      '"' :: (':' :: ' ' :: (printJson (d + 1) jv ++ '\n' :: (indentChars d ++ '}' :: rest)))
      from by simp]
    rw [parseStringAux_quoted k.data _ _ (by simp [List.length_append])]
    show (match parseJsonAux f
        (' ' :: (printJson (d + 1) jv ++ '\n' :: (indentChars d ++ '}' :: rest))) with
      | some (v, r3) =>
        match skipWs r3 with
        | ',' :: r4 =>
          match parseObjLoop f r4 with
          | some (fs2, r5) => some ((String.mk k.data, v) :: fs2, r5)
          | none => none
        | '}' :: r4 => some ([(String.mk k.data, v)], r4)
        | _ => none
      | none => none) = some ([(k, jv)], rest)
    obtain ⟨f2, rfl⟩ : ∃ g, f = g + 1 := ⟨f - 1, by
      have : 1 ≤ (printJson (d + 1) jv).length := by
        obtain ⟨c0, cs0, hpv, _, _, _⟩ := printJson_head (d + 1) jv
        rw [hpv]; simp
      omega⟩
    rw [show (' ' :: (printJson (d + 1) jv ++ '\n' :: (indentChars d ++ '}' :: rest))) =
      [' '] ++ (printJson (d + 1) jv ++ '\n' :: (indentChars d ++ '}' :: rest)) from rfl]
    rw [parseJsonAux_ws [' '] _ f2 (by decide)]
    have hvkj : ParsesBack (d + 1) jv := hv (k, jv) (by simp)
    rw [hvkj ('\n' :: (indentChars d ++ '}' :: rest))
      (f2 + 1) (Or.inr ⟨'\n', _, rfl, by decide⟩) (by omega)]
    show (match skipWs ('\n' :: (indentChars d ++ '}' :: rest)) with
      | ',' :: r4 =>
        match parseObjLoop (f2 + 1) r4 with
        | some (fs2, r5) => some ((String.mk k.data, jv) :: fs2, r5)
        | none => none
      | '}' :: r4 => some ([(String.mk k.data, jv)], r4)
      | _ => none) = some ([(k, jv)], rest)
    rw [skipWs_newline, skipWs_indent, skipWs_not_ws _ _ (by decide)]
    rfl
  | cons g gs ih =>
    intro k jv rest fuel hv hfuel
    obtain ⟨kg, jg⟩ := g
    obtain ⟨f, rfl⟩ : ∃ f, fuel = f + 1 := ⟨fuel - 1, by omega⟩
    rw [printItemsObj_eq] at hfuel ⊢
    simp only [List.length_append, List.length_cons] at hfuel
    rw [parseObjLoop_succ]
    rw [List.append_assoc, List.append_assoc, skipWs_indent]
    rw [show quoteString k ++ ':' :: ' ' :: printJson (d + 1) jv = '"' ::
      ((k.data.map escapeChar).flatten ++ '"' :: (':' :: ' ' :: printJson (d + 1) jv))
      from by simp [quoteString]]
    rw [List.cons_append, skipWs_not_ws _ _ (by decide)]
    show (match parseStringAux (((k.data.map escapeChar).flatten ++
        '"' :: (':' :: ' ' :: printJson (d + 1) jv)) ++
        (',' :: '\n' :: printItemsObj (d + 1) (kg, jg) gs ++
          '\n' :: (indentChars d ++ '}' :: rest))).length
        (((k.data.map escapeChar).flatten ++ '"' :: (':' :: ' ' :: printJson (d + 1) jv)) ++
        (',' :: '\n' :: printItemsObj (d + 1) (kg, jg) gs ++
          '\n' :: (indentChars d ++ '}' :: rest))) with
      | some (key, r) =>
        match skipWs r with
        | ':' :: r2 =>
          match parseJsonAux f r2 with
          | some (v, r3) =>
            match skipWs r3 with
            | ',' :: r4 =>
              match parseObjLoop f r4 with
              | some (fs2, r5) => some ((String.mk key, v) :: fs2, r5)
              | none => none
            | '}' :: r4 => some ([(String.mk key, v)], r4)
            | _ => none
          | none => none
        | _ => none
      | none => none) = some ((k, jv) :: (kg, jg) :: gs, rest)
    rw [List.append_assoc]
    rw [show '"' :: (':' :: ' ' :: printJson (d + 1) jv) ++
      (',' :: '\n' :: printItemsObj (d + 1) (kg, jg) gs ++ '\n' :: (indentChars d ++ '}' :: rest)) =
      '"' :: (':' :: ' ' :: (printJson (d + 1) jv ++
        (',' :: '\n' :: printItemsObj (d + 1) (kg, jg) gs ++
          '\n' :: (indentChars d ++ '}' :: rest)))) from by simp]
    rw [parseStringAux_quoted k.data _ _ (by simp [List.length_append])]
    obtain ⟨f2, rfl⟩ : ∃ g2, f = g2 + 1 := ⟨f - 1, by omega⟩
    show (match parseJsonAux (f2 + 1)
        (' ' :: (printJson (d + 1) jv ++ (',' :: '\n' :: printItemsObj (d + 1) (kg, jg) gs ++
          '\n' :: (indentChars d ++ '}' :: rest)))) with
      | some (v, r3) =>
        match skipWs r3 with
        | ',' :: r4 =>
          match parseObjLoop (f2 + 1) r4 with
          | some (fs2, r5) => some ((String.mk k.data, v) :: fs2, r5)
          | none => none
        | '}' :: r4 => some ([(String.mk k.data, v)], r4)
        | _ => none
      | none => none) = some ((k, jv) :: (kg, jg) :: gs, rest)
    rw [show (' ' :: (printJson (d + 1) jv ++ (',' :: '\n' :: printItemsObj (d + 1) (kg, jg) gs ++
        '\n' :: (indentChars d ++ '}' :: rest)))) =
      [' '] ++ (printJson (d + 1) jv ++ (',' :: '\n' :: printItemsObj (d + 1) (kg, jg) gs ++
        '\n' :: (indentChars d ++ '}' :: rest))) from rfl]
    rw [parseJsonAux_ws [' '] _ f2 (by decide)]
    have hvkj : ParsesBack (d + 1) jv := hv (k, jv) (by simp)
    rw [hvkj ((',' :: '\n' :: printItemsObj (d + 1) (kg, jg) gs) ++
      '\n' :: (indentChars d ++ '}' :: rest)) (f2 + 1)
      (Or.inr ⟨',', ('\n' :: printItemsObj (d + 1) (kg, jg) gs) ++
        '\n' :: (indentChars d ++ '}' :: rest), rfl, by decide⟩) (by omega)]
    show (match skipWs ((',' :: '\n' :: printItemsObj (d + 1) (kg, jg) gs) ++
        '\n' :: (indentChars d ++ '}' :: rest)) with
      | ',' :: r4 =>
        match parseObjLoop (f2 + 1) r4 with
        | some (fs2, r5) => some ((String.mk k.data, jv) :: fs2, r5)
        | none => none
      | '}' :: r4 => some ([(String.mk k.data, jv)], r4)
      | _ => none) = some ((k, jv) :: (kg, jg) :: gs, rest)
    rw [show (',' :: '\n' :: printItemsObj (d + 1) (kg, jg) gs) ++
        '\n' :: (indentChars d ++ '}' :: rest) =
      ',' :: (('\n' :: printItemsObj (d + 1) (kg, jg) gs) ++
        '\n' :: (indentChars d ++ '}' :: rest)) from rfl]
    rw [skipWs_not_ws _ _ (by decide)]
    show (match parseObjLoop (f2 + 1) (('\n' :: printItemsObj (d + 1) (kg, jg) gs) ++
        '\n' :: (indentChars d ++ '}' :: rest)) with
      | some (fs2, r5) => some ((String.mk k.data, jv) :: fs2, r5)
      | none => none) = some ((k, jv) :: (kg, jg) :: gs, rest)
    rw [show ('\n' :: printItemsObj (d + 1) (kg, jg) gs) ++
        '\n' :: (indentChars d ++ '}' :: rest) =
      ['\n'] ++ (printItemsObj (d + 1) (kg, jg) gs ++
        '\n' :: (indentChars d ++ '}' :: rest)) from rfl]
    rw [parseObjLoop_ws ['\n'] _ (f2 + 1) (by decide) (by omega)]
    rw [ih kg jg rest (f2 + 1) (fun x hx => hv x (by simp at hx ⊢; tauto)) (by omega)]

theorem skipWs_idem (l : List Char) : skipWs (skipWs l) = skipWs l := by
  induction l with
  | nil => rfl
  | cons c cs ih =>
    by_cases h : isJsonWs c = true
    · rw [skipWs_ws_cons c cs h, ih]
    · rw [skipWs_not_ws c cs (by simpa using h), skipWs_not_ws c cs (by simpa using h)]

theorem parseObjLoop_skipWs (l : List Char) (fuel : Nat) (hfuel : 1 ≤ fuel) :
    parseObjLoop fuel (skipWs l) = parseObjLoop fuel l := by
  obtain ⟨f, rfl⟩ : ∃ f, fuel = f + 1 := ⟨fuel - 1, by omega⟩
  rw [parseObjLoop_succ, parseObjLoop_succ, skipWs_idem]

/-- A printed object parses back, given that its member values do. -/
theorem parsesBack_obj (d : Nat) (fields : List (String × Json))
    (hv : ∀ g ∈ fields, ParsesBack (d + 1) g.2) : ParsesBack d (.obj fields) := by
  intro r f hnd hf
  cases fields with
  | nil =>
    rw [printJson_obj_nil] at hf ⊢
    obtain ⟨f', rfl⟩ : ∃ g, f = g + 1 := ⟨f - 1, by simp at hf; omega⟩
    rw [parseJsonAux_succ]
    rfl
  | cons g gs =>
    obtain ⟨kg, jg⟩ := g
    rw [printJson_obj_cons] at hf ⊢
    obtain ⟨f', rfl⟩ : ∃ g2, f = g2 + 1 := ⟨f - 1, by
      simp only [List.length_cons] at hf
      omega⟩
    rw [parseJsonAux_succ, List.cons_append, List.cons_append]
    rw [skipWs_not_ws _ _ (by decide)]
    show (match skipWs ('\n' :: ((printItemsObj (d + 1) (kg, jg) gs ++
        '\n' :: (indentChars d ++ ['}'])) ++ r)) with
      | '}' :: r2 => some (Json.obj [], r2)
      | cs2 =>
        match parseObjLoop f' cs2 with
        | some (fs2, r2) => some (Json.obj fs2, r2)
        | none => none) = some (Json.obj ((kg, jg) :: gs), r)
    rw [skipWs_newline]
    have hin : (printItemsObj (d + 1) (kg, jg) gs ++ '\n' :: (indentChars d ++ ['}'])) ++ r =
        printItemsObj (d + 1) (kg, jg) gs ++ '\n' :: (indentChars d ++ '}' :: r) := by
      simp
    rw [hin]
    have hloop := parseObjLoop_items d gs kg jg r f' hv (by
      rw [printItemsObj_eq] at hf
      rw [printItemsObj_eq]
      simp only [List.length_append, List.length_cons] at hf ⊢
      omega)
    have hhead : ∃ W, skipWs (printItemsObj (d + 1) (kg, jg) gs ++
        '\n' :: (indentChars d ++ '}' :: r)) = '"' :: W := by
      rw [printItemsObj_eq]
      simp only [quoteString, List.append_assoc, List.cons_append]
      rw [skipWs_indent, skipWs_not_ws _ _ (by decide)]
      exact ⟨_, rfl⟩
    obtain ⟨W, hW⟩ := hhead
    have hob : parseObjLoop f' (skipWs (printItemsObj (d + 1) (kg, jg) gs ++
        '\n' :: (indentChars d ++ '}' :: r))) = some ((kg, jg) :: gs, r) := by
      rw [parseObjLoop_skipWs _ f' (by
        simp only [List.length_cons] at hf
        omega), hloop]
    split
    · rename_i r2 heq
      rw [hW] at heq
      rw [List.cons.injEq] at heq
      exact absurd heq.1 (by decide)
    · rw [hob]

/-- A printed artwork object parses back. -/
theorem parsesBack_artwork (d : Nat) (a : Artwork) : ParsesBack d a.toJson := by
  apply parsesBack_obj
  intro g hg
  simp only [Artwork.toJson, List.mem_cons, List.not_mem_nil, or_false] at hg
  rcases hg with rfl | rfl | rfl | rfl | rfl | rfl | rfl
  · exact parsesBack_str _ _
  · exact parsesBack_str _ _
  · exact parsesBack_str _ _
  · exact parsesBack_str _ _
  · exact parsesBack_str _ _
  · refine parsesBack_arr _ _ ?_
    intro w hw
    rw [List.mem_map] at hw
    obtain ⟨t, _, rfl⟩ := hw
    exact parsesBack_str _ _
  · exact parsesBack_num _ _

/-- `JSON.parse` undoes `JSON.stringify(·, null, 2)` on an array of
artwork objects. -/
theorem jsonParse_stringify_manifest (l : List Artwork) :
    jsonParse (jsonStringify (.arr (l.map Artwork.toJson))) =
      some (.arr (l.map Artwork.toJson)) := by
  have hpb : ParsesBack 0 (.arr (l.map Artwork.toJson)) := by
    apply parsesBack_arr
    intro w hw
    rw [List.mem_map] at hw
    obtain ⟨a, _, rfl⟩ := hw
    exact parsesBack_artwork 1 a
  unfold jsonParse jsonStringify
  rw [show (String.mk (printJson 0 (Json.arr (l.map Artwork.toJson)))).data =
    printJson 0 (Json.arr (l.map Artwork.toJson)) from rfl]
  have h := hpb [] ((printJson 0 (Json.arr (l.map Artwork.toJson))).length + 1)
    (Or.inl rfl) (by omega)
  rw [List.append_nil] at h
  rw [h]
  rfl

theorem mapOption_cons (f : α → Option β) (x : α) (xs : List α) :
    mapOption f (x :: xs) =
      match f x, mapOption f xs with
      | some y, some ys => some (y :: ys)
      | _, _ => none := rfl

theorem mapOption_str_extract (ts : List String) :
    mapOption (fun t => match t with | Json.str s => some s | _ => none)
      (ts.map Json.str) = some ts := by
  induction ts with
  | nil => rfl
  | cons t ts ih =>
    rw [List.map_cons, mapOption_cons, ih]

/-- Reading back the JSON image of an artwork record gives the record. -/
theorem fromJson?_toJson (a : Artwork) : Artwork.fromJson? a.toJson = some a := by
  show Artwork.fromJson? (.obj [("id", .str a.id), ("imageUrl", .str a.imageUrl),
    ("title", .str a.title), ("description", .str a.description), ("medium", .str a.medium),
    ("tags", .arr (a.tags.map Json.str)), ("createdAt", .num a.createdAt)]) = some a
  show (match mapOption (fun t => match t with | Json.str s => some s | _ => none)
      (a.tags.map Json.str) with
    | some tags => some ⟨a.id, a.imageUrl, a.title, a.description, a.medium, tags, a.createdAt⟩
    | none => none) = some a
  rw [mapOption_str_extract]

theorem mapOption_fromJson_toJson (l : List Artwork) :
    mapOption Artwork.fromJson? (l.map Artwork.toJson) = some l := by
  induction l with
  | nil => rfl
  | cons a l ih =>
    rw [List.map_cons, mapOption_cons, fromJson?_toJson, ih]

theorem encodeManifest_ne_newline (l : List Artwork) :
    ∀ c ∈ (encodeManifest l).data, c ≠ '\n' := by
  intro c hc
  exact b64encodeBytes_ne_newline _ c hc

theorem stripNewlines_encodeManifest (l : List Artwork) :
    stripNewlines (encodeManifest l) = encodeManifest l := by
  unfold stripNewlines
  have hfil : (encodeManifest l).data.filter (fun c => c ≠ '\n') = (encodeManifest l).data :=
    List.filter_eq_self.mpr (fun c hc => by simpa using encodeManifest_ne_newline l c hc)
  rw [hfil]

/-- The decode pipeline on the encoded manifest, up to the parsed JSON. -/
theorem decodeManifestJson_encode (l : List Artwork) (w : String)
    (hw : stripNewlines w = encodeManifest l) :
    decodeManifestJson w = some (.arr (l.map Artwork.toJson)) := by
  unfold decodeManifestJson
  rw [hw]
  unfold encodeManifest encodeManifestJson
  rw [b64_to_utf8_utf8_to_b64]
  show jsonParse (jsonStringify (.arr (l.map Artwork.toJson))) = _
  rw [jsonParse_stringify_manifest]

/-- Full manifest codec round trip, newline wrapping included: any
transport string whose newline-stripped form is the encoded manifest
decodes to the original records. -/
theorem decodeManifest_encodeManifest (l : List Artwork) (w : String)
    (hw : stripNewlines w = encodeManifest l) :
    decodeManifest w = some l := by
  unfold decodeManifest
  rw [decodeManifestJson_encode l w hw]
  show mapOption Artwork.fromJson? (l.map Artwork.toJson) = some l
  exact mapOption_fromJson_toJson l

/-! ## Store model and the publish orchestration

The backing store holds the single `gallery.json` file as whole-file
state with an integrity token (the content hash `sha`); a conditional
PUT with a stale or missing token is refused atomically.  Tokens are
modelled as a fresh counter, the `conditionalWrite(path, bytes,
expectedVersion) -> ok|conflict` compare-and-swap abstraction of the
design notes. -/

structure GHStore where
  file : Option (String × Nat)
  nextSha : Nat
deriving DecidableEq, Repr

inductive PutResult where
  | ok
  | conflict
deriving DecidableEq, Repr

/-- The contents-API PUT: `sha` omitted ⇒ create (fails if the file
exists, 422), `sha` supplied ⇒ update (fails on mismatch, 409, and on a
missing file).  Every refusal leaves the store unchanged. -/
def condPut (s : GHStore) (content : String) (expectedSha : Option Nat) :
    GHStore × PutResult :=
  match s.file, expectedSha with
  | none, none => (⟨some (content, s.nextSha), s.nextSha + 1⟩, .ok)
  | none, some _ => (s, .conflict)
  | some _, none => (s, .conflict)
  | some (_, sha), some e =>
    if e = sha then (⟨some (content, s.nextSha), s.nextSha + 1⟩, .ok)
    else (s, .conflict)

/-- A store whose stored token is older than the fresh counter. -/
def GHStore.wf (s : GHStore) : Prop :=
  ∀ c sha, s.file = some (c, sha) → sha < s.nextSha

/-- Step 1 of `updateGalleryManifest` against a reachable store: the
authenticated GET captures `sha` first, then decodes the content; a
decode exception is caught after `sha` was assigned, leaving
`currentArtworks = []` (here `Json.arr []`). -/
def fetchManifest (s : GHStore) : Option Nat × Json :=
  match s.file with
  | none => (none, .arr [])
  | some (content, sha) => (some sha, (decodeManifestJson content).getD (.arr []))

/-- Steps 2-3 of `updateGalleryManifest`: prepend the new record to the
fetched array and PUT with the sha captured by the same fetch, passed
unchanged.  A fetched manifest that is valid JSON but not an array makes
the spread `[newArtwork, ...currentArtworks]` throw before any PUT
(strings, which JS would spread character-wise, excepted — no claim
touches that case). -/
def commitManifest (s : GHStore) (newArtwork : Artwork) (fetched : Option Nat × Json) :
    GHStore × Bool :=
  match fetched.2 with
  | .arr items =>
    let r := condPut s (encodeManifestJson (newArtwork.toJson :: items)) fetched.1
    (r.1, r.2 = .ok)
  | _ => (s, false)

/-- One `updateGalleryManifest` call against a live store; `true` means
the PUT succeeded (the function returned instead of throwing). -/
def updateGalleryManifest (s : GHStore) (newArtwork : Artwork) : GHStore × Bool :=
  commitManifest s newArtwork (fetchManifest s)

/-- Sequential publishes; returns the final store and whether every
commit succeeded. -/
def publishSeq (s : GHStore) : List Artwork → GHStore × Bool
  | [] => (s, true)
  | a :: rest =>
    let r := updateGalleryManifest s a
    let r2 := publishSeq r.1 rest
    (r2.1, r.2 && r2.2)

/-! ### Request-trace model of one `updateGalleryManifest` call

For the claims about which requests an attempt performs, the attempt is
a function of the environment's responses. -/

inductive FetchOutcome where
  | ok (content : String) (sha : Nat)
  | notFound
  | httpError
  | netError
deriving DecidableEq, Repr

inductive Req where
  | get
  | put (content : String) (sha : Option Nat)
deriving DecidableEq, Repr

def Req.isPut : Req → Bool
  | .put _ _ => true
  | .get => false

def Req.isGet : Req → Bool
  | .get => true
  | .put _ _ => false

/-- The requests `updateGalleryManifest` issues and whether it returns
normally, given the environment's responses.  A missing token throws
before any request.  A failed or non-OK GET is caught (or skipped by
`if (getResponse.ok)`) and leaves `sha` undefined and the list empty;
the attempt then proceeds to the PUT. -/
def manifestAttemptTrace (token : Bool) (newArtwork : Artwork)
    (fetchResp : FetchOutcome) (putResp : PutResult) : List Req × Bool :=
  if !token then ([], false)
  else
    let sha : Option Nat :=
      match fetchResp with
      | .ok _ s => some s
      | _ => none
    let current : Json :=
      match fetchResp with
      | .ok content _ => (decodeManifestJson content).getD (.arr [])
      | _ => .arr []
    match current with
    | .arr items =>
      ([.get, .put (encodeManifestJson (newArtwork.toJson :: items)) sha],
        putResp = .ok)
    | _ => ([.get], false)

/-! ### `handlePublish` step model

The attempt runs `fileToGenerativePart`, then `uploadImageToGitHub`,
then `updateGalleryManifest`; any rejection lands in the surrounding
`catch` and aborts the rest. -/

inductive PubStep where
  | uploadImage
  | updateManifest (a : Artwork)
deriving DecidableEq, Repr

structure PublishEnv where
  fileSelected : Bool
  title : String
  tokenPresent : Bool
  base64Ok : Bool
  uploadResult : Option String
  uuid : String
  description : String
  medium : String
  tags : List String
  now : Nat

/-- The steps `handlePublish` performs and the artwork it hands to
`updateGalleryManifest` (none when that call is never reached). -/
def handlePublish (env : PublishEnv) : List PubStep × Option Artwork :=
  if !env.fileSelected || env.title = "" then ([], none)
  else if !env.tokenPresent then ([], none)
  else if !env.base64Ok then ([], none)
  else
    match env.uploadResult with
    | none => ([.uploadImage], none)
    | some url =>
      let newArtwork : Artwork :=
        ⟨env.uuid, url, env.title, env.description, env.medium, env.tags, env.now⟩
      ([.uploadImage, .updateManifest newArtwork], some newArtwork)

/-! ### Read side: `fetchGalleryFromGitHub` and `loadGalleryData` -/

inductive ReadOutcome where
  | netError
  | httpError
  | okJson (v : Json)
  | okNotJson
deriving Repr

/-- The public read: empty config short-circuits; a rejected fetch or
non-OK response or unparsable body yields `[]`; a parsed non-array is
coerced to `[]` by the `Array.isArray` check. -/
def fetchGalleryFromGitHub (ownerRepoSet : Bool) (o : ReadOutcome) : List Json :=
  if !ownerRepoSet then []
  else
    match o with
    | .okJson (.arr items) => items
    | _ => []

/-- `loadGalleryData`: fetch only when configured, and replace the
in-memory catalog only when the result is non-empty. -/
def loadGalleryData (artworks : List Json) (ownerRepoSet : Bool) (o : ReadOutcome) :
    List Json :=
  if ownerRepoSet then
    let data := fetchGalleryFromGitHub ownerRepoSet o
    if data.length > 0 then data else artworks
  else artworks

/-! ### Filename sanitization in `uploadImageToGitHub` -/

/-- The characters kept by `file.name.replace(/[^a-zA-Z0-9.-]/g, '')`,
as code-point ranges. -/
def isAllowedFileChar (c : Char) : Bool :=
  (65 ≤ c.toNat && c.toNat ≤ 90) || (97 ≤ c.toNat && c.toNat ≤ 122) ||
    (48 ≤ c.toNat && c.toNat ≤ 57) || c = '.' || c = '-'

/-- `file.name.replace(/[^a-zA-Z0-9.-]/g, '').toLowerCase()`; after the
filter only ASCII remains, where JS `toLowerCase` and `Char.toLower`
agree. -/
def cleanName (s : String) : String :=
  String.mk ((s.data.filter isAllowedFileChar).map Char.toLower)

/-! ### Behaviour of one publish against the live store -/

theorem commitManifest_arr (s : GHStore) (a : Artwork) (items : List Json)
    (shaOpt : Option Nat) :
    commitManifest s a (shaOpt, .arr items) =
      ((condPut s (encodeManifestJson (a.toJson :: items)) shaOpt).1,
        decide ((condPut s (encodeManifestJson (a.toJson :: items)) shaOpt).2 = PutResult.ok)) :=
  rfl

theorem condPut_hit (s : GHStore) (c content : String) (sha : Nat)
    (hfile : s.file = some (c, sha)) :
    condPut s content (some sha) = (⟨some (content, s.nextSha), s.nextSha + 1⟩, .ok) := by
  unfold condPut
  rw [hfile]
  show (if sha = sha then ((⟨some (content, s.nextSha), s.nextSha + 1⟩ : GHStore), PutResult.ok)
    else (s, PutResult.conflict)) = _
  rw [if_pos rfl]

theorem condPut_stale (s : GHStore) (c content : String) (sha e : Nat)
    (hfile : s.file = some (c, sha)) (hne : e ≠ sha) :
    condPut s content (some e) = (s, .conflict) := by
  unfold condPut
  rw [hfile]
  show (if e = sha then ((⟨some (content, s.nextSha), s.nextSha + 1⟩ : GHStore), PutResult.ok)
    else (s, PutResult.conflict)) = _
  rw [if_neg hne]

theorem condPut_create (s : GHStore) (content : String) (hfile : s.file = none) :
    condPut s content none = (⟨some (content, s.nextSha), s.nextSha + 1⟩, .ok) := by
  unfold condPut
  rw [hfile]

theorem fetchManifest_encoded (s : GHStore) (prev : List Artwork) (sha : Nat)
    (hfile : s.file = some (encodeManifest prev, sha)) :
    fetchManifest s = (some sha, .arr (prev.map Artwork.toJson)) := by
  unfold fetchManifest
  rw [hfile]
  show (some sha, (decodeManifestJson (encodeManifest prev)).getD (Json.arr [])) = _
  rw [decodeManifestJson_encode prev _ (stripNewlines_encodeManifest prev)]
  rfl

/-- A publish against a store holding an encoded manifest prepends the
new record and bumps the integrity token. -/
theorem updateGalleryManifest_present (s : GHStore) (prev : List Artwork) (sha : Nat)
    (a : Artwork) (hfile : s.file = some (encodeManifest prev, sha)) :
    updateGalleryManifest s a =
      (⟨some (encodeManifest (a :: prev), s.nextSha), s.nextSha + 1⟩, true) := by
  unfold updateGalleryManifest
  rw [fetchManifest_encoded s prev sha hfile, commitManifest_arr,
    show encodeManifestJson (a.toJson :: prev.map Artwork.toJson) =
      encodeManifest (a :: prev) from rfl,
    condPut_hit s _ _ sha hfile]
  simp

/-- The first publish creates the manifest. -/
theorem updateGalleryManifest_absent (s : GHStore) (a : Artwork) (hfile : s.file = none) :
    updateGalleryManifest s a =
      (⟨some (encodeManifest [a], s.nextSha), s.nextSha + 1⟩, true) := by
  unfold updateGalleryManifest
  rw [show fetchManifest s = (none, Json.arr []) from by unfold fetchManifest; rw [hfile]]
  rw [commitManifest_arr, condPut_create s _ hfile]
  simp [encodeManifest, List.map]

/-- A publish on top of an undecodable manifest still succeeds, writing
only the new record (the token was captured before the decode failed). -/
theorem updateGalleryManifest_corrupt (s : GHStore) (c : String) (sha : Nat) (a : Artwork)
    (hfile : s.file = some (c, sha)) (hbad : decodeManifestJson c = none) :
    updateGalleryManifest s a =
      (⟨some (encodeManifest [a], s.nextSha), s.nextSha + 1⟩, true) := by
  unfold updateGalleryManifest
  rw [show fetchManifest s = (some sha, Json.arr []) from by
    unfold fetchManifest
    rw [hfile]
    show (some sha, (decodeManifestJson c).getD (Json.arr [])) = _
    rw [hbad]
    rfl]
  rw [commitManifest_arr, condPut_hit s c _ sha hfile]
  simp [encodeManifest, List.map]

/-- The publish sequence invariant: from a store holding the encoded
manifest of `prev`, publishing `rest` in order succeeds throughout and
leaves the encoded manifest of `rest.reverse ++ prev`. -/
theorem publishSeq_inv : ∀ (rest prev : List Artwork) (s : GHStore) (sha : Nat),
    s.file = some (encodeManifest prev, sha) →
    (publishSeq s rest).2 = true ∧
      ∃ sha2, (publishSeq s rest).1.file = some (encodeManifest (rest.reverse ++ prev), sha2) := by
  intro rest
  induction rest with
  | nil =>
    intro prev s sha hfile
    exact ⟨rfl, sha, by simpa using hfile⟩
  | cons a rest ih =>
    intro prev s sha hfile
    show (let r := updateGalleryManifest s a
      let r2 := publishSeq r.1 rest
      ((r2.1, r.2 && r2.2).2 = true ∧
        ∃ sha2, (r2.1, r.2 && r2.2).1.file = some (encodeManifest ((a :: rest).reverse ++ prev), sha2)))
    rw [updateGalleryManifest_present s prev sha a hfile]
    have hstep := ih (a :: prev) ⟨some (encodeManifest (a :: prev), s.nextSha), s.nextSha + 1⟩
      s.nextSha rfl
    refine ⟨by simp [hstep.1], ?_⟩
    obtain ⟨sha2, hs2⟩ := hstep.2
    refine ⟨sha2, ?_⟩
    rw [show (a :: rest).reverse ++ prev = rest.reverse ++ (a :: prev) from by simp]
    simpa using hs2

/-! ## The claims -/

/-- Concrete records used by the closed witness theorems. -/
def artA : Artwork := ⟨"idA", "https://x/a.png", "Alpha", "first", "oil", ["a"], 1⟩

def artB : Artwork := ⟨"idB", "https://x/b.png", "Beta", "second", "ink", [], 2⟩

/-- A record with multi-byte scripts and emoji in every text field. -/
def artU : Artwork :=
  ⟨"идентификатор", "https://x/ü.png", "Héllo 🎨", "描述 mit Präzision", "огонь🔥",
    ["água", "emoji🎭", "日本語"], 1699999999999⟩

/-- C1: modeling the store as a single file with content and an
integrity token where a conditional write whose expected token differs
from the current one fails with Conflict and changes nothing, whenever
two publish attempts both fetch the manifest at the same token `T`, the
attempt that commits first succeeds and the other's commit returns
Conflict and leaves the manifest unchanged; `updateGalleryManifest`
passes the sha captured by its own fetch, unchanged, as the
precondition of its PUT (`updateGalleryManifest s a` is definitionally
`commitManifest s a (fetchManifest s)`). -/
theorem claim_C1_no_lost_write (s0 : GHStore) (c : String) (T : Nat) (a b : Artwork)
    (items : List Json)
    (hfile : s0.file = some (c, T)) (hwf : s0.wf)
    (harr : (decodeManifestJson c).getD (.arr []) = .arr items) :
    (fetchManifest s0).1 = some T ∧
    (commitManifest s0 a (fetchManifest s0)).2 = true ∧
    (commitManifest (commitManifest s0 a (fetchManifest s0)).1 b (fetchManifest s0)).2 = false ∧
    (commitManifest (commitManifest s0 a (fetchManifest s0)).1 b (fetchManifest s0)).1 =
      (commitManifest s0 a (fetchManifest s0)).1 := by
  have hfm : fetchManifest s0 = (some T, .arr items) := by
    unfold fetchManifest
    rw [hfile]
    show (some T, (decodeManifestJson c).getD (Json.arr [])) = _
    rw [harr]
  have hT : T < s0.nextSha := hwf c T hfile
  rw [hfm]
  simp only [commitManifest_arr]
  rw [condPut_hit s0 c _ T hfile]
  have hstale := condPut_stale
    ⟨some (encodeManifestJson (a.toJson :: items), s0.nextSha), s0.nextSha + 1⟩
    (encodeManifestJson (a.toJson :: items)) (encodeManifestJson (b.toJson :: items))
    s0.nextSha T rfl (by omega)
  simp [hstale]

theorem claim_C1_witness :
    GHStore.wf ⟨some ("notjson", 0), 1⟩ ∧
    ((fetchManifest ⟨some ("notjson", 0), 1⟩).1 = some 0 ∧
      (commitManifest ⟨some ("notjson", 0), 1⟩ artA (fetchManifest ⟨some ("notjson", 0), 1⟩)).2 =
        true ∧
      (commitManifest (commitManifest ⟨some ("notjson", 0), 1⟩ artA
        (fetchManifest ⟨some ("notjson", 0), 1⟩)).1 artB
        (fetchManifest ⟨some ("notjson", 0), 1⟩)).2 = false ∧
      (commitManifest (commitManifest ⟨some ("notjson", 0), 1⟩ artA
        (fetchManifest ⟨some ("notjson", 0), 1⟩)).1 artB
        (fetchManifest ⟨some ("notjson", 0), 1⟩)).1 =
        (commitManifest ⟨some ("notjson", 0), 1⟩ artA
          (fetchManifest ⟨some ("notjson", 0), 1⟩)).1) :=
  have hwf : GHStore.wf ⟨some ("notjson", 0), 1⟩ := by
    intro c sha h
    have h2 : some ("notjson", (0 : Nat)) = some (c, sha) := h
    simp only [Option.some.injEq, Prod.mk.injEq] at h2
    show sha < 1
    omega
  ⟨hwf, claim_C1_no_lost_write ⟨some ("notjson", 0), 1⟩ "notjson" 0 artA artB []
    rfl hwf rfl⟩

/-- C2, as stated, is false on the code: a network error (or any non-OK
response) on the authenticated GET of `gallery.json` is caught (or
skipped by `if (getResponse.ok)`) and the attempt continues; here the
attempt with a failing fetch still issues the PUT (with no integrity
token) and returns success. -/
theorem claim_C2_counterexample :
    manifestAttemptTrace true artA .netError .ok =
      ([.get, .put (encodeManifestJson [artA.toJson]) none], true) ∧
    ((manifestAttemptTrace true artA .netError .ok).1.any Req.isPut = true) := by
  constructor
  · rfl
  · rfl

/-- C2 (amended): an upload failure or a failing PUT aborts the attempt,
but a failure of FetchManifest does not: any non-OK response or network
error on the GET is treated exactly like the file being absent — the
attempt continues and CommitManifest performs the PUT with no integrity
token over the empty list, and the attempt fails only if that PUT
fails. -/
theorem claim_C2_amended (token : Bool) (a : Artwork) (fr : FetchOutcome) (pr : PutResult)
    (htoken : token = true)
    (hfail : fr = .netError ∨ fr = .httpError ∨ fr = .notFound) :
    manifestAttemptTrace token a fr pr =
      ([.get, .put (encodeManifestJson [a.toJson]) none], decide (pr = .ok)) := by
  subst htoken
  rcases hfail with rfl | rfl | rfl <;> rfl

theorem claim_C2_amended_witness :
    (FetchOutcome.httpError = FetchOutcome.netError ∨
      FetchOutcome.httpError = FetchOutcome.httpError ∨
      FetchOutcome.httpError = FetchOutcome.notFound) ∧
    manifestAttemptTrace true artB .httpError .conflict =
      ([.get, .put (encodeManifestJson [artB.toJson]) none], decide (PutResult.conflict = .ok)) :=
  ⟨Or.inr (Or.inl rfl),
    claim_C2_amended true artB .httpError .conflict rfl (Or.inr (Or.inl rfl))⟩

/-- Wrapping a newline-free string in newlines is undone by the
newline-stripping step. -/
theorem stripNewlines_wrap (s : String) (h : stripNewlines s = s) :
    stripNewlines (String.mk ('\n' :: (s.data ++ ['\n']))) = s := by
  unfold stripNewlines at h ⊢
  have hdata : (String.mk (s.data.filter (fun c => c ≠ '\n'))).data =
      s.data.filter (fun c => c ≠ '\n') := rfl
  have hfil : s.data.filter (fun c => c ≠ '\n') = s.data := by
    have := congrArg String.data h
    rwa [hdata] at this
  show String.mk (List.filter (fun c => decide (c ≠ '\n')) ('\n' :: (s.data ++ ['\n']))) = s
  rw [List.filter_cons_of_neg (by decide), List.filter_append, hfil,
    List.filter_cons_of_neg (by decide)]
  show String.mk (s.data ++ []) = s
  rw [List.append_nil]

/-- C3: codec round trip — decoding the encoded manifest returns the
original records for arbitrary Unicode fields, also when the transport
wraps the Base64 text with newline characters (which decode strips
before Base64-decoding): any transport string whose newline-stripped
form equals the encoding decodes to the original sequence. -/
theorem claim_C3_codec_round_trip (l : List Artwork) (w : String)
    (hw : stripNewlines w = encodeManifest l) :
    decodeManifest w = some l :=
  decodeManifest_encodeManifest l w hw

theorem claim_C3_witness :
    stripNewlines (String.mk ('\n' :: ((encodeManifest [artU, artA]).data ++ ['\n']))) =
      encodeManifest [artU, artA] ∧
    decodeManifest (String.mk ('\n' :: ((encodeManifest [artU, artA]).data ++ ['\n']))) =
      some [artU, artA] :=
  ⟨stripNewlines_wrap _ (stripNewlines_encodeManifest [artU, artA]),
    claim_C3_codec_round_trip [artU, artA]
      (String.mk ('\n' :: ((encodeManifest [artU, artA]).data ++ ['\n'])))
      (stripNewlines_wrap _ (stripNewlines_encodeManifest [artU, artA]))⟩

/-- C4: corrupt-manifest recovery — when the manifest file exists but
its content does not decode, the fetch inside `updateGalleryManifest`
treats the manifest as empty (the integrity token was captured before
the decode), the commit of the same attempt succeeds, and the resulting
manifest holds exactly the new record. -/
theorem claim_C4_corrupt_recovery (s : GHStore) (c : String) (sha : Nat) (a : Artwork)
    (hfile : s.file = some (c, sha)) (hbad : decodeManifestJson c = none) :
    (updateGalleryManifest s a).2 = true ∧
    (updateGalleryManifest s a).1.file = some (encodeManifest [a], s.nextSha) ∧
    decodeManifest (encodeManifest [a]) = some [a] := by
  rw [updateGalleryManifest_corrupt s c sha a hfile hbad]
  exact ⟨rfl, rfl, decodeManifest_encodeManifest [a] _ (stripNewlines_encodeManifest [a])⟩

theorem claim_C4_witness :
    decodeManifestJson "notjson" = none ∧
    ((updateGalleryManifest ⟨some ("notjson", 7), 8⟩ artA).2 = true ∧
      (updateGalleryManifest ⟨some ("notjson", 7), 8⟩ artA).1.file =
        some (encodeManifest [artA], 8) ∧
      decodeManifest (encodeManifest [artA]) = some [artA]) :=
  ⟨rfl, claim_C4_corrupt_recovery ⟨some ("notjson", 7), 8⟩ "notjson" 7 artA rfl rfl⟩

/-- C5: order invariant — starting from an empty store, N sequential
publishes of `r1..rN` all succeed and leave the manifest equal to
`[rN, ..., r1]`, most recent first; each commit prepends exactly the
new record to the sequence fetched in the same attempt. -/
theorem claim_C5_order_invariant (rs : List Artwork) (hne : rs ≠ []) :
    (publishSeq ⟨none, 0⟩ rs).2 = true ∧
    ∃ sha, (publishSeq ⟨none, 0⟩ rs).1.file = some (encodeManifest rs.reverse, sha) ∧
      decodeManifest (encodeManifest rs.reverse) = some rs.reverse := by
  rcases rs with _ | ⟨r, rest⟩
  · exact absurd rfl hne
  · show (let p := updateGalleryManifest ⟨none, 0⟩ r
      let p2 := publishSeq p.1 rest
      ((p2.1, p.2 && p2.2).2 = true ∧
        ∃ sha, (p2.1, p.2 && p2.2).1.file = some (encodeManifest (r :: rest).reverse, sha) ∧
          decodeManifest (encodeManifest (r :: rest).reverse) = some (r :: rest).reverse))
    rw [updateGalleryManifest_absent ⟨none, 0⟩ r rfl]
    have hinv := publishSeq_inv rest [r] ⟨some (encodeManifest [r], 0), 0 + 1⟩ 0 rfl
    refine ⟨by simp [hinv.1], ?_⟩
    obtain ⟨sha2, hs2⟩ := hinv.2
    have hrev : (r :: rest).reverse = rest.reverse ++ [r] := by simp
    exact ⟨sha2, by rw [hrev]; simpa using hs2,
      by rw [hrev]; exact decodeManifest_encodeManifest _ _ (stripNewlines_encodeManifest _)⟩

theorem claim_C5_witness :
    ([artA, artB] : List Artwork) ≠ [] ∧
    ((publishSeq ⟨none, 0⟩ [artA, artB]).2 = true ∧
      ∃ sha, (publishSeq ⟨none, 0⟩ [artA, artB]).1.file =
          some (encodeManifest [artA, artB].reverse, sha) ∧
        decodeManifest (encodeManifest [artA, artB].reverse) = some [artA, artB].reverse) :=
  ⟨by decide, claim_C5_order_invariant [artA, artB] (by decide)⟩

/-- C6: single-attempt conflict policy — each `updateGalleryManifest`
call performs at most one manifest PUT and at most one GET; if the
store rejects the write (stale integrity token), the call surfaces the
failure and performs no automatic re-fetch and no second write. -/
theorem claim_C6_single_write (token : Bool) (a : Artwork) (fr : FetchOutcome)
    (pr : PutResult) :
    ((manifestAttemptTrace token a fr pr).1.countP Req.isPut ≤ 1) ∧
    ((manifestAttemptTrace token a fr pr).1.countP Req.isGet ≤ 1) ∧
    (pr = .conflict → (manifestAttemptTrace token a fr pr).2 = false) := by
  cases token with
  | false => refine ⟨?_, ?_, fun _ => rfl⟩ <;> simp [manifestAttemptTrace]
  | true =>
    cases fr with
    | ok content sha =>
      cases hj : (decodeManifestJson content).getD (Json.arr []) with
      | arr items =>
        refine ⟨?_, ?_, fun h => ?_⟩
        · simp [manifestAttemptTrace, hj, List.countP_cons, Req.isPut, Req.isGet]
        · simp [manifestAttemptTrace, hj, List.countP_cons, Req.isPut, Req.isGet]
        · subst h
          simp [manifestAttemptTrace, hj]
      | str s2 =>
        refine ⟨?_, ?_, fun h => ?_⟩ <;>
          simp [manifestAttemptTrace, hj, List.countP_cons, Req.isPut, Req.isGet]
      | num n =>
        refine ⟨?_, ?_, fun h => ?_⟩ <;>
          simp [manifestAttemptTrace, hj, List.countP_cons, Req.isPut, Req.isGet]
      | bool b =>
        refine ⟨?_, ?_, fun h => ?_⟩ <;>
          simp [manifestAttemptTrace, hj, List.countP_cons, Req.isPut, Req.isGet]
      | null =>
        refine ⟨?_, ?_, fun h => ?_⟩ <;>
          simp [manifestAttemptTrace, hj, List.countP_cons, Req.isPut, Req.isGet]
      | obj fs =>
        refine ⟨?_, ?_, fun h => ?_⟩ <;>
          simp [manifestAttemptTrace, hj, List.countP_cons, Req.isPut, Req.isGet]
    | notFound =>
      refine ⟨?_, ?_, fun h => ?_⟩
      · simp [manifestAttemptTrace, List.countP_cons, Req.isPut, Req.isGet]
      · simp [manifestAttemptTrace, List.countP_cons, Req.isPut, Req.isGet]
      · subst h
        simp [manifestAttemptTrace]
    | httpError =>
      refine ⟨?_, ?_, fun h => ?_⟩
      · simp [manifestAttemptTrace, List.countP_cons, Req.isPut, Req.isGet]
      · simp [manifestAttemptTrace, List.countP_cons, Req.isPut, Req.isGet]
      · subst h
        simp [manifestAttemptTrace]
    | netError =>
      refine ⟨?_, ?_, fun h => ?_⟩
      · simp [manifestAttemptTrace, List.countP_cons, Req.isPut, Req.isGet]
      · simp [manifestAttemptTrace, List.countP_cons, Req.isPut, Req.isGet]
      · subst h
        simp [manifestAttemptTrace]

theorem claim_C6_witness :
    PutResult.conflict = PutResult.conflict ∧
    (manifestAttemptTrace true artA .notFound .conflict).2 = false ∧
    (manifestAttemptTrace true artA .notFound .conflict).1.countP Req.isPut ≤ 1 :=
  ⟨rfl, (claim_C6_single_write true artA .notFound .conflict).2.2 rfl,
    (claim_C6_single_write true artA .notFound .conflict).1⟩

/-- C7: upload happens before manifest update — `handlePublish` reaches
`updateGalleryManifest` only after `uploadImageToGitHub` returned
successfully (if any earlier step throws, the manifest is never
written), and the committed record carries exactly the URL that upload
returned as its locator. -/
theorem claim_C7_upload_before_manifest (env : PublishEnv) :
    (∀ art : Artwork, PubStep.updateManifest art ∈ (handlePublish env).1 →
      env.uploadResult = some art.imageUrl ∧
      (handlePublish env).1 = [.uploadImage, .updateManifest art]) ∧
    (env.uploadResult = none → ∀ art : Artwork,
      PubStep.updateManifest art ∉ (handlePublish env).1) := by
  unfold handlePublish
  split
  · exact ⟨fun art h => absurd h (by simp), fun _ art h => absurd h (by simp)⟩
  · split
    · exact ⟨fun art h => absurd h (by simp), fun _ art h => absurd h (by simp)⟩
    · split
      · exact ⟨fun art h => absurd h (by simp), fun _ art h => absurd h (by simp)⟩
      · cases hup : env.uploadResult with
        | none =>
          refine ⟨fun art h => ?_, fun _ art h => ?_⟩
          · simp at h
          · simp at h
        | some url =>
          refine ⟨fun art h => ?_, fun hnone art h => ?_⟩
          · simp only [List.mem_cons, List.not_mem_nil, or_false] at h
            rcases h with h | h
            · cases h
            · have harr : art = ⟨env.uuid, url, env.title, env.description, env.medium,
                env.tags, env.now⟩ := by
                injection h
              subst harr
              exact ⟨rfl, rfl⟩
          · exact Option.noConfusion hnone

theorem claim_C7_witness :
    PubStep.updateManifest ⟨"u1", "https://x/i.png", "T", "D", "M", [], 9⟩ ∈
      (handlePublish ⟨true, "T", true, true, some "https://x/i.png", "u1", "D", "M", [], 9⟩).1 ∧
    (⟨true, "T", true, true, some "https://x/i.png", "u1", "D", "M", [], 9⟩ :
      PublishEnv).uploadResult =
      some (Artwork.imageUrl ⟨"u1", "https://x/i.png", "T", "D", "M", [], 9⟩) ∧
    (handlePublish ⟨true, "T", true, true, some "https://x/i.png", "u1", "D", "M", [], 9⟩).1 =
      [.uploadImage, .updateManifest ⟨"u1", "https://x/i.png", "T", "D", "M", [], 9⟩] :=
  have hmem : PubStep.updateManifest ⟨"u1", "https://x/i.png", "T", "D", "M", [], 9⟩ ∈
      (handlePublish ⟨true, "T", true, true, some "https://x/i.png", "u1", "D", "M", [], 9⟩).1 :=
    by decide
  ⟨hmem,
    ((claim_C7_upload_before_manifest
      ⟨true, "T", true, true, some "https://x/i.png", "u1", "D", "M", [], 9⟩).1 _ hmem).1,
    ((claim_C7_upload_before_manifest
      ⟨true, "T", true, true, some "https://x/i.png", "u1", "D", "M", [], 9⟩).1 _ hmem).2⟩

/-- C8: fail-soft cache — on a network error or non-OK response of the
public read, `fetchGalleryFromGitHub` returns the empty list, and
`loadGalleryData` leaves the populated in-memory catalog unchanged. -/
theorem claim_C8_fail_soft (artworks : List Json) (ownerRepoSet : Bool) (o : ReadOutcome)
    (hne : artworks ≠ []) (hfail : o = .netError ∨ o = .httpError) :
    fetchGalleryFromGitHub ownerRepoSet o = [] ∧
    loadGalleryData artworks ownerRepoSet o = artworks := by
  rcases hfail with rfl | rfl <;> cases ownerRepoSet <;> exact ⟨rfl, rfl⟩

theorem claim_C8_witness :
    ([Json.str "x"] : List Json) ≠ [] ∧
    (ReadOutcome.netError = ReadOutcome.netError ∨ ReadOutcome.netError = .httpError) ∧
    fetchGalleryFromGitHub true .netError = [] ∧
    loadGalleryData [Json.str "x"] true .netError = [Json.str "x"] :=
  ⟨by simp, Or.inl rfl,
    (claim_C8_fail_soft [Json.str "x"] true .netError (by simp) (Or.inl rfl)).1,
    (claim_C8_fail_soft [Json.str "x"] true .netError (by simp) (Or.inl rfl)).2⟩

/-- C10 (implicit): a refresh never replaces a populated catalog with an
empty one under any outcome — an empty or non-array body is coerced to
the empty list by `fetchGalleryFromGitHub`, and `loadGalleryData`
discards any empty result and keeps the previous catalog. -/
theorem claim_C10_refresh_never_empties (artworks : List Json) (ownerRepoSet : Bool)
    (o : ReadOutcome) (hne : artworks ≠ []) :
    loadGalleryData artworks ownerRepoSet o ≠ [] ∧
    (fetchGalleryFromGitHub ownerRepoSet o = [] →
      loadGalleryData artworks ownerRepoSet o = artworks) ∧
    fetchGalleryFromGitHub ownerRepoSet (.okJson (.arr [])) = [] ∧
    (∀ v : Json, (∀ items, v ≠ .arr items) →
      fetchGalleryFromGitHub ownerRepoSet (.okJson v) = []) := by
  cases ownerRepoSet with
  | false => exact ⟨hne, fun _ => rfl, rfl, fun v hv => rfl⟩
  | true =>
    refine ⟨?_, fun hfe => ?_, rfl, fun v hv => ?_⟩
    · show (if (fetchGalleryFromGitHub true o).length > 0
        then fetchGalleryFromGitHub true o else artworks) ≠ []
      by_cases hd : (fetchGalleryFromGitHub true o).length > 0
      · rw [if_pos hd]
        exact List.length_pos.mp hd
      · rw [if_neg hd]
        exact hne
    · show (if (fetchGalleryFromGitHub true o).length > 0
        then fetchGalleryFromGitHub true o else artworks) = artworks
      rw [hfe]
      rfl
    · cases v with
      | arr items => exact absurd rfl (hv items)
      | str s2 => rfl
      | num n => rfl
      | bool b => rfl
      | null => rfl
      | obj fs => rfl

theorem claim_C10_witness :
    ([Json.str "x"] : List Json) ≠ [] ∧
    loadGalleryData [Json.str "x"] true (.okJson (.arr [])) = [Json.str "x"] ∧
    loadGalleryData [Json.str "x"] true (.okJson (.str "oops")) = [Json.str "x"] :=
  have hne : ([Json.str "x"] : List Json) ≠ [] := by simp
  ⟨hne,
    (claim_C10_refresh_never_empties [Json.str "x"] true (.okJson (.arr [])) hne).2.1 rfl,
    (claim_C10_refresh_never_empties [Json.str "x"] true (.okJson (.str "oops")) hne).2.1 rfl⟩

theorem char_toNat_ofNat (n : Nat) (h : n.isValidChar) : (Char.ofNat n).toNat = n := by
  unfold Char.ofNat
  rw [dif_pos h]
  rfl

/-- C9: filename sanitization — every character of the sanitized name is
in `[a-z0-9.-]` (stated by code point: lowercase letters `97..122`,
digits `48..57`, `.` and `-`). -/
theorem claim_C9_sanitization (name : String) :
    ∀ c ∈ (cleanName name).data,
      (97 ≤ c.toNat ∧ c.toNat ≤ 122) ∨ (48 ≤ c.toNat ∧ c.toNat ≤ 57) ∨ c = '.' ∨ c = '-' := by
  intro c hc
  have hc2 : c ∈ (name.data.filter isAllowedFileChar).map Char.toLower := hc
  rw [List.mem_map] at hc2
  obtain ⟨c0, hc0, rfl⟩ := hc2
  rw [List.mem_filter] at hc0
  have hallow := hc0.2
  unfold isAllowedFileChar at hallow
  simp only [Bool.or_eq_true, Bool.and_eq_true, decide_eq_true_eq] at hallow
  unfold Char.toLower
  rcases hallow with (((⟨h1, h2⟩ | ⟨h1, h2⟩) | ⟨h1, h2⟩) | h) | h
  · rw [if_pos ⟨by omega, by omega⟩]
    left
    rw [char_toNat_ofNat _ (Or.inl (by omega))]
    omega
  · rw [if_neg (by omega)]
    left
    exact ⟨h1, h2⟩
  · rw [if_neg (by omega)]
    right
    left
    exact ⟨h1, h2⟩
  · subst h
    rw [if_neg (by decide)]
    right
    right
    left
    rfl
  · subst h
    rw [if_neg (by decide)]
    right
    right
    right
    rfl

theorem claim_C9_witness :
    'e' ∈ (cleanName "../E vIl💀.PNG").data ∧
    ((97 ≤ 'e'.toNat ∧ 'e'.toNat ≤ 122) ∨ (48 ≤ 'e'.toNat ∧ 'e'.toNat ≤ 57) ∨
      'e' = '.' ∨ 'e' = '-') :=
  ⟨by decide, claim_C9_sanitization "../E vIl💀.PNG" 'e' (by decide)⟩

end GalleryProof
